import Mathlib

/-!
# Verification of the EigenSlur spectral risk-scoring core

A shallow embedding, in Lean 4, of the Python modules
`app/services/text.py`, `app/services/spectral.py`, `app/services/fusion.py`
and `app/services/scoring.py`, together with theorems that settle the
behavioural claims about them.

Modelling conventions:

* Python `float` arithmetic is modelled by real arithmetic on `ℝ`.
* The 8-byte big-endian `blake2b` digest used by `_token_hash` is an external
  library primitive; it is modelled by an arbitrary function
  `h : String → Nat` whose value is reduced modulo `2 ^ 64` (the digest is a
  64-bit word).  All theorems hold for every such `h`, hence in particular for
  the digest the program uses.
* `numpy.linalg.eigvalsh` (ascending eigenvalues of a symmetric matrix) is
  modelled as the ascending-sorted multiset of real roots, with multiplicity,
  of the characteristic polynomial.
* The SQLite storage backend is an external stateful resource; it is modelled
  by an explicit record of saved rows plus the quantile snapshot that
  `get_feature_quantiles` would return.
-/

namespace EigenSlur

/-! ## Text primitives (`app/services/text.py`) -/

/-- The core character class `[a-z0-9]` of `TOKEN_PATTERN`. -/
def isCoreChar (c : Char) : Bool :=
  (decide ('a' ≤ c) && decide (c ≤ 'z')) || (decide ('0' ≤ c) && decide (c ≤ '9'))

/-- The linker class `[_'-]` of `TOKEN_PATTERN` (code point 39 is the
apostrophe). -/
def isLinkChar (c : Char) : Bool :=
  decide (c = '_') || decide (c = '-') || decide (c.toNat = 39)

/-- Python `str.lower` on a single character (ASCII range; the token pattern
only ever matches ASCII characters). -/
def lowerChar (c : Char) : Char :=
  if 'A' ≤ c ∧ c ≤ 'Z' then Char.ofNat (c.toNat + 32) else c

/-- Python `str.lower` on a string, as a character list. -/
def lowerStr (s : List Char) : List Char := s.map lowerChar

/-- Whitespace, as used by Python `str.strip` and `\s` in the sentence
splitter. -/
def isSpaceChar (c : Char) : Bool := c.isWhitespace

/-- Python `str.strip`: drop leading and trailing whitespace. -/
def pyStrip (s : List Char) : List Char :=
  ((s.dropWhile isSpaceChar).reverse.dropWhile isSpaceChar).reverse

theorem length_dropWhile_le {α : Type} (p : α → Bool) (l : List α) :
    (l.dropWhile p).length ≤ l.length := by
  induction l with
  | nil => simp
  | cons c rest ih =>
    rw [List.dropWhile_cons]
    split
    · exact Nat.le_trans ih (Nat.le_succ _)
    · exact Nat.le_refl _

/-- The `(?:[_'-][a-z0-9]+)*` tail of one token: repeatedly consume a linker
character followed by a non-empty core run.  Returns the consumed prefix and
the remaining input. -/
def lexLinked : List Char → List Char × List Char
  | [] => ([], [])
  | [c] => ([], [c])
  | l :: d :: rest =>
    if isLinkChar l && isCoreChar d then
      let run := List.takeWhile isCoreChar (d :: rest)
      let r1 := List.dropWhile isCoreChar (d :: rest)
      let p := lexLinked r1
      (l :: (run ++ p.1), p.2)
    else ([], l :: d :: rest)
termination_by xs => xs.length
decreasing_by
  simp only [List.dropWhile_cons, *]
  split
  · exact Nat.lt_succ_of_lt (Nat.lt_succ_of_le (length_dropWhile_le _ _))
  · rename_i hd
    simp only [Bool.and_eq_true] at *
    simp [*] at hd

theorem lexLinked_snd_length_le (xs : List Char) :
    (lexLinked xs).2.length ≤ xs.length := by
  induction xs using lexLinked.induct with
  | case1 => simp [lexLinked]
  | case2 c => simp [lexLinked]
  | case3 l d rest hld r1 ih =>
    rw [lexLinked]
    simp only [hld, if_pos]
    refine Nat.le_trans ih ?_
    show (List.dropWhile isCoreChar (d :: rest)).length ≤ (l :: d :: rest).length
    exact Nat.le_trans (length_dropWhile_le _ _) (by simp)
  | case4 l d rest hld =>
    rw [lexLinked]
    simp [hld]

/-- All maximal matches of `TOKEN_PATTERN` (`re.findall`): scan the input,
skip non-core characters, and at each core character read one maximal token
(`[a-z0-9]+(?:[_'-][a-z0-9]+)*`). -/
def lexAll : List Char → List (List Char)
  | [] => []
  | c :: rest =>
    if isCoreChar c then
      let run := List.takeWhile isCoreChar (c :: rest)
      let r1 := List.dropWhile isCoreChar (c :: rest)
      let p := lexLinked r1
      (run ++ p.1) :: lexAll p.2
    else lexAll rest
termination_by xs => xs.length
decreasing_by
  · rename_i hc
    calc (lexLinked (List.dropWhile isCoreChar (c :: rest))).2.length
        ≤ (List.dropWhile isCoreChar (c :: rest)).length :=
          lexLinked_snd_length_le _
      _ ≤ rest.length := by rw [List.dropWhile_cons]; simp [hc]; exact length_dropWhile_le _ _
      _ < (c :: rest).length := by simp
  · simp

/-- `tokenize(text)`: token pattern matches against the lowercased input. -/
def tokenize (s : String) : List String :=
  (lexAll (lowerStr s.data)).map fun t => String.mk t

/-- Join a list of token character lists with single spaces (`" ".join`). -/
def joinSpace : List (List Char) → List Char
  | [] => []
  | [t] => t
  | t :: u :: ts => t ++ ' ' :: joinSpace (u :: ts)

/-- `normalize_term(value)`: strip, lowercase, tokenize, join with single
spaces; an input with no tokens normalizes to its stripped lowercase form. -/
def normalizeTermL (value : List Char) : List Char :=
  let normalized := lowerStr (pyStrip value)
  let tokens := lexAll (lowerStr normalized)
  if tokens.isEmpty then normalized else joinSpace tokens

/-- `normalize_term` on `String`. -/
def normalizeTerm (s : String) : String := String.mk (normalizeTermL s.data)

/-- `token_sequence_contains(tokens, term_tokens)`: some contiguous window of
`tokens` equals `term_tokens`; empty `term_tokens` gives `false`. -/
def tokenSequenceContains (tokens termTokens : List String) : Bool :=
  if termTokens.isEmpty then false
  else if tokens.length < termTokens.length then false
  else (List.range (tokens.length - termTokens.length + 1)).any fun idx =>
    decide ((tokens.drop idx).take termTokens.length = termTokens)

/-- Sentence-terminating punctuation `[.!?]` of `SENTENCE_SPLIT_PATTERN`. -/
def isPunctChar (c : Char) : Bool :=
  decide (c = '.') || decide (c = '!') || decide (c = '?')

/-- `re.split(r"(?<=[.!?])\s+", text)`: cut the input at every maximal
whitespace run that directly follows `.`, `!` or `?`.  The first argument is
the remaining input, the second the current chunk reversed. -/
def splitChunks : List Char → List Char → List (List Char)
  | [], cur => [cur.reverse]
  | c :: rest, cur =>
    if isSpaceChar c && (match cur with
        | p :: _ => isPunctChar p
        | [] => false) then
      cur.reverse :: splitChunks (rest.dropWhile isSpaceChar) []
    else
      splitChunks rest (c :: cur)
termination_by l _ => l.length
decreasing_by
  · exact Nat.lt_succ_of_le (length_dropWhile_le _ _)
  · simp

/-- `split_sentences(text)`: split, trim each chunk, drop empty chunks. -/
def splitSentencesL (text : List Char) : List (List Char) :=
  ((splitChunks text []).map pyStrip).filter fun chunk => !chunk.isEmpty

/-- `split_sentences` on `String`. -/
def splitSentences (s : String) : List String :=
  (splitSentencesL s.data).map fun t => String.mk t

/-! ### Character-class facts -/

theorem charLe_iff (a b : Char) : a ≤ b ↔ a.toNat ≤ b.toNat := Iff.rfl

theorem toNat_ofNat_valid (m : Nat) (h : m < 55296) : (Char.ofNat m).toNat = m := by
  have hv : m.isValidChar := Or.inl h
  rw [Char.ofNat, dif_pos hv]
  simp [Char.ofNatAux, Char.toNat, UInt32.toNat, UInt32.ofNatCore]

theorem char_toNat_lt (c : Char) : c.toNat < 1114112 := by
  cases c with
  | mk v hvalid =>
    rcases hvalid with h | ⟨_, h⟩
    · exact Nat.lt_trans h (by norm_num)
    · exact h

theorem isCoreChar_toNat {c : Char} (h : isCoreChar c = true) :
    (97 ≤ c.toNat ∧ c.toNat ≤ 122) ∨ (48 ≤ c.toNat ∧ c.toNat ≤ 57) := by
  simp only [isCoreChar, Bool.or_eq_true, Bool.and_eq_true, decide_eq_true_eq] at h
  rcases h with ⟨h1, h2⟩ | ⟨h1, h2⟩
  · exact Or.inl ⟨h1, h2⟩
  · exact Or.inr ⟨h1, h2⟩

theorem isLinkChar_toNat {c : Char} (h : isLinkChar c = true) :
    c.toNat = 95 ∨ c.toNat = 45 ∨ c.toNat = 39 := by
  simp only [isLinkChar, Bool.or_eq_true, decide_eq_true_eq] at h
  rcases h with (rfl | rfl) | h
  · exact Or.inl (by decide)
  · exact Or.inr (Or.inl (by decide))
  · exact Or.inr (Or.inr h)

theorem isLinkChar_not_core {c : Char} (h : isLinkChar c = true) :
    isCoreChar c = false := by
  by_contra hc
  rw [Bool.not_eq_false] at hc
  rcases isCoreChar_toNat hc with ⟨h1, h2⟩ | ⟨h1, h2⟩ <;>
    rcases isLinkChar_toNat h with hv | hv | hv <;> omega

theorem isSpaceChar_toNat {c : Char} (h : isSpaceChar c = true) :
    c.toNat = 32 ∨ c.toNat = 9 ∨ c.toNat = 13 ∨ c.toNat = 10 := by
  simp only [isSpaceChar, Char.isWhitespace, Bool.or_eq_true, decide_eq_true_eq] at h
  rcases h with ((rfl | rfl) | rfl) | rfl <;> decide

theorem isSpaceChar_not_core {c : Char} (h : isSpaceChar c = true) :
    isCoreChar c = false := by
  by_contra hc
  rw [Bool.not_eq_false] at hc
  rcases isCoreChar_toNat hc with ⟨h1, h2⟩ | ⟨h1, h2⟩ <;>
    rcases isSpaceChar_toNat h with hv | hv | hv | hv <;> omega

theorem isSpaceChar_not_link {c : Char} (h : isSpaceChar c = true) :
    isLinkChar c = false := by
  by_contra hc
  rw [Bool.not_eq_false] at hc
  rcases isLinkChar_toNat hc with h1 | h1 | h1 <;>
    rcases isSpaceChar_toNat h with hv | hv | hv | hv <;> omega

theorem lowerChar_eq_self {c : Char} (h : ¬('A' ≤ c ∧ c ≤ 'Z')) :
    lowerChar c = c := if_neg h

theorem lowerChar_of_upper {c : Char} (h : 'A' ≤ c ∧ c ≤ 'Z') :
    (lowerChar c).toNat = c.toNat + 32 := by
  rw [lowerChar, if_pos h]
  have hz : c.toNat ≤ 90 := h.2
  exact toNat_ofNat_valid _ (by omega)

theorem lowerChar_idem (c : Char) : lowerChar (lowerChar c) = lowerChar c := by
  by_cases h : 'A' ≤ c ∧ c ≤ 'Z'
  · have ht := lowerChar_of_upper h
    have h65 : (65 : Nat) ≤ c.toNat := h.1
    refine lowerChar_eq_self ?_
    rintro ⟨h1, h2⟩
    rw [charLe_iff] at h2
    have : (lowerChar c).toNat ≤ 90 := h2
    omega
  · rw [lowerChar_eq_self h, lowerChar_eq_self h]

theorem lowerChar_fix_core {c : Char} (h : isCoreChar c = true) :
    lowerChar c = c := by
  refine lowerChar_eq_self ?_
  rintro ⟨h1, h2⟩
  rw [charLe_iff] at h1 h2
  have ha : ('A' : Char).toNat = 65 := rfl
  have hz : ('Z' : Char).toNat = 90 := rfl
  rcases isCoreChar_toNat h with ⟨g1, g2⟩ | ⟨g1, g2⟩ <;> omega

theorem lowerChar_fix_link {c : Char} (h : isLinkChar c = true) :
    lowerChar c = c := by
  refine lowerChar_eq_self ?_
  rintro ⟨h1, h2⟩
  rw [charLe_iff] at h1 h2
  have ha : ('A' : Char).toNat = 65 := rfl
  have hz : ('Z' : Char).toNat = 90 := rfl
  rcases isLinkChar_toNat h with g | g | g <;> omega

theorem lowerChar_space (c : Char) : isSpaceChar (lowerChar c) = isSpaceChar c := by
  by_cases h : 'A' ≤ c ∧ c ≤ 'Z'
  · have ht := lowerChar_of_upper h
    have h1 : (65 : Nat) ≤ c.toNat := h.1
    have h2 : c.toNat ≤ 90 := h.2
    have hl : isSpaceChar (lowerChar c) = false := by
      by_contra hx
      rw [Bool.not_eq_false] at hx
      rcases isSpaceChar_toNat hx with g | g | g | g <;> omega
    have hr : isSpaceChar c = false := by
      by_contra hx
      rw [Bool.not_eq_false] at hx
      rcases isSpaceChar_toNat hx with g | g | g | g <;> omega
    rw [hl, hr]
  · rw [lowerChar_eq_self h]

theorem lowerChar_space_char : lowerChar ' ' = ' ' := by decide

/-! ### Token-shape predicates and the lexer round trip -/

/-- The `(?:[_'-][a-z0-9]+)*` shape: shape of everything a token carries after
its first core run. -/
def goodTail : List Char → Bool
  | [] => true
  | l :: rest =>
    isLinkChar l && !(rest.takeWhile isCoreChar).isEmpty &&
      goodTail (rest.dropWhile isCoreChar)
termination_by xs => xs.length
decreasing_by
  exact Nat.lt_succ_of_le (length_dropWhile_le _ _)

/-- The full token shape `[a-z0-9]+(?:[_'-][a-z0-9]+)*`. -/
def goodTok (t : List Char) : Bool :=
  !(t.takeWhile isCoreChar).isEmpty && goodTail (t.dropWhile isCoreChar)

theorem takeWhile_all_append {α : Type} {p : α → Bool} {r : List α}
    (h : ∀ c ∈ r, p c = true) (ys : List α) :
    List.takeWhile p (r ++ ys) = r ++ List.takeWhile p ys := by
  induction r with
  | nil => simp
  | cons a r ih =>
    simp only [List.cons_append, List.takeWhile_cons, h a (by simp), if_pos]
    rw [ih fun c hc => h c (by simp [hc])]

theorem dropWhile_all_append {α : Type} {p : α → Bool} {r : List α}
    (h : ∀ c ∈ r, p c = true) (ys : List α) :
    List.dropWhile p (r ++ ys) = List.dropWhile p ys := by
  induction r with
  | nil => simp
  | cons a r ih =>
    simp only [List.cons_append, List.dropWhile_cons, h a (by simp), if_pos]
    exact ih fun c hc => h c (by simp [hc])

theorem takeWhile_none {α : Type} {p : α → Bool} {w : List α}
    (h : ∀ c ∈ w, p c = false) : List.takeWhile p w = [] := by
  cases w with
  | nil => rfl
  | cons a w => simp [List.takeWhile_cons, h a (by simp)]

theorem dropWhile_none {α : Type} {p : α → Bool} {w : List α}
    (h : ∀ c ∈ w, p c = false) : List.dropWhile p w = w := by
  cases w with
  | nil => rfl
  | cons a w => simp [List.dropWhile_cons, h a (by simp)]

theorem takeWhile_append_none {α : Type} {p : α → Bool} {xs w : List α}
    (h : ∀ c ∈ w, p c = false) :
    List.takeWhile p (xs ++ w) = List.takeWhile p xs := by
  induction xs with
  | nil => simpa using takeWhile_none h
  | cons a xs ih =>
    simp only [List.cons_append, List.takeWhile_cons]
    split <;> simp [ih]

theorem dropWhile_append_none {α : Type} {p : α → Bool} {xs w : List α}
    (h : ∀ c ∈ w, p c = false) :
    List.dropWhile p (xs ++ w) = List.dropWhile p xs ++ w := by
  induction xs with
  | nil => simpa using dropWhile_none h
  | cons a xs ih =>
    simp only [List.cons_append, List.dropWhile_cons]
    split <;> simp [ih]

theorem mem_takeWhile_core {c : Char} {l : List Char}
    (h : c ∈ List.takeWhile isCoreChar l) : isCoreChar c = true := by
  induction l with
  | nil => simp at h
  | cons a l ih =>
    rw [List.takeWhile_cons] at h
    by_cases ha : isCoreChar a = true
    · rw [if_pos ha] at h
      rcases List.mem_cons.mp h with rfl | h
      · exact ha
      · exact ih h
    · rw [if_neg ha] at h
      simp at h

/-- Separator condition: the input ahead cannot extend a token. -/
def sepOk : List Char → Prop
  | [] => True
  | s :: _ => isCoreChar s = false ∧ isLinkChar s = false

theorem lexLinked_stop {ys : List Char} (h : sepOk ys) : lexLinked ys = ([], ys) := by
  cases ys with
  | nil => simp only [lexLinked]
  | cons s tl =>
    cases tl with
    | nil => simp only [lexLinked]
    | cons d tl2 =>
      rw [lexLinked]
      simp [h.2]

/-- The input ahead does not start with a core character. -/
def headNotCore : List Char → Prop
  | [] => True
  | s :: _ => isCoreChar s = false

theorem sepOk_not_core {ys : List Char} (h : headNotCore ys) :
    List.takeWhile isCoreChar ys = [] ∧ List.dropWhile isCoreChar ys = ys := by
  cases ys with
  | nil => exact ⟨rfl, rfl⟩
  | cons s tl =>
    have hf : isCoreChar s = false := h
    constructor
    · rw [List.takeWhile_cons, if_neg (by simp [hf])]
    · rw [List.dropWhile_cons, if_neg (by simp [hf])]

theorem lexLinked_goodTail {ys : List Char} (hs : sepOk ys) :
    ∀ {u : List Char}, goodTail u = true → lexLinked (u ++ ys) = (u, ys) := by
  intro u
  induction u using goodTail.induct with
  | case1 =>
    intro _
    simpa using lexLinked_stop hs
  | case2 l rest ih =>
    intro hg
    rw [goodTail] at hg
    simp only [Bool.and_eq_true, Bool.not_eq_true', List.isEmpty_eq_false] at hg
    obtain ⟨⟨hl, hrun⟩, htail⟩ := hg
    have hsplit : List.takeWhile isCoreChar rest ++ List.dropWhile isCoreChar rest = rest :=
      List.takeWhile_append_dropWhile _ _
    set run := List.takeWhile isCoreChar rest with hrundef
    set tail := List.dropWhile isCoreChar rest with htaildef
    obtain ⟨d, run', hd⟩ : ∃ d run', run = d :: run' := by
      cases hrun' : run with
      | nil => exact absurd hrun' hrun
      | cons d run' => exact ⟨d, run', rfl⟩
    have hrunall : ∀ c ∈ run, isCoreChar c = true := fun c hc => mem_takeWhile_core hc
    have hdcore : isCoreChar d = true := hrunall d (by rw [hd]; simp)
    have htailsep : headNotCore (tail ++ ys) := by
      cases htl : tail with
      | nil =>
        simp only [htl, List.nil_append]
        cases ys with
        | nil => trivial
        | cons s tl => exact hs.1
      | cons t0 ttl =>
        have hgt : goodTail (t0 :: ttl) = true := htl ▸ htail
        rw [goodTail] at hgt
        simp only [Bool.and_eq_true] at hgt
        exact isLinkChar_not_core hgt.1.1
    have harr : (l :: rest) ++ ys = l :: d :: (run' ++ (tail ++ ys)) := by
      conv_lhs => rw [← hsplit]
      simp [hd]
    rw [harr, lexLinked]
    have hld : (isLinkChar l && isCoreChar d) = true := by simp [hl, hdcore]
    rw [if_pos hld]
    have hrun2 : ∀ c ∈ (d :: run'), isCoreChar c = true := by
      rw [← hd]; exact hrunall
    have hassoc : d :: (run' ++ (tail ++ ys)) = (d :: run') ++ (tail ++ ys) := by simp
    have htw : List.takeWhile isCoreChar (d :: (run' ++ (tail ++ ys))) = run := by
      rw [hassoc, takeWhile_all_append hrun2, (sepOk_not_core htailsep).1, hd,
        List.append_nil]
    have hdw : List.dropWhile isCoreChar (d :: (run' ++ (tail ++ ys))) = tail ++ ys := by
      rw [hassoc, dropWhile_all_append hrun2, (sepOk_not_core htailsep).2]
    simp only [htw, hdw]
    rw [ih htail]
    refine Prod.ext ?_ rfl
    show l :: (run ++ tail) = l :: rest
    rw [hsplit]

theorem goodTail_nil : goodTail [] = true := by rw [goodTail]

theorem lexAll_nil : lexAll ([] : List Char) = [] := by rw [lexAll]

theorem lexLinked_fst_head (xs : List Char) :
    headNotCore (lexLinked xs).1 := by
  induction xs using lexLinked.induct with
  | case1 => simp only [lexLinked]; trivial
  | case2 c => simp only [lexLinked]; trivial
  | case3 l d rest hld r1 ih =>
    rw [lexLinked, if_pos hld]
    have : isLinkChar l = true := (Bool.and_eq_true _ _).mp hld |>.1
    exact isLinkChar_not_core this
  | case4 l d rest hld =>
    rw [lexLinked, if_neg hld]
    trivial

theorem goodTail_lexLinked (xs : List Char) :
    goodTail (lexLinked xs).1 = true := by
  induction xs using lexLinked.induct with
  | case1 => simp only [lexLinked]; exact goodTail_nil
  | case2 c => simp only [lexLinked]; exact goodTail_nil
  | case3 l d rest hld r1 ih =>
    have hl : isLinkChar l = true := (Bool.and_eq_true _ _).mp hld |>.1
    have hd : isCoreChar d = true := (Bool.and_eq_true _ _).mp hld |>.2
    rw [lexLinked, if_pos hld]
    show goodTail (l :: (List.takeWhile isCoreChar (d :: rest) ++ (lexLinked r1).1)) = true
    rw [goodTail]
    have hrunall : ∀ c ∈ List.takeWhile isCoreChar (d :: rest), isCoreChar c = true :=
      fun c hc => mem_takeWhile_core hc
    have hhead : headNotCore (lexLinked r1).1 := lexLinked_fst_head r1
    have htw : List.takeWhile isCoreChar
        (List.takeWhile isCoreChar (d :: rest) ++ (lexLinked r1).1)
        = List.takeWhile isCoreChar (d :: rest) := by
      rw [takeWhile_all_append hrunall, (sepOk_not_core hhead).1, List.append_nil]
    have hdw : List.dropWhile isCoreChar
        (List.takeWhile isCoreChar (d :: rest) ++ (lexLinked r1).1)
        = (lexLinked r1).1 := by
      rw [dropWhile_all_append hrunall, (sepOk_not_core hhead).2]
    rw [htw, hdw]
    have hrun_ne : List.takeWhile isCoreChar (d :: rest) ≠ [] := by
      rw [List.takeWhile_cons, if_pos hd]
      simp
    simp [hl, hrun_ne, ih]
  | case4 l d rest hld =>
    rw [lexLinked, if_neg hld]
    exact goodTail_nil

theorem goodTok_run_append {run tail2 : List Char} (hne : run ≠ [])
    (hall : ∀ c ∈ run, isCoreChar c = true) (hhead : headNotCore tail2)
    (htail : goodTail tail2 = true) : goodTok (run ++ tail2) = true := by
  rw [goodTok]
  rw [takeWhile_all_append hall, (sepOk_not_core hhead).1, List.append_nil]
  rw [dropWhile_all_append hall, (sepOk_not_core hhead).2]
  simp [hne, htail]

theorem goodTok_of_mem_lexAll {xs : List Char} {t : List Char}
    (ht : t ∈ lexAll xs) : goodTok t = true := by
  induction xs using lexAll.induct with
  | case1 => rw [lexAll_nil] at ht; simp at ht
  | case2 c rest hc r1 p ih =>
    rw [lexAll, if_pos hc] at ht
    rcases List.mem_cons.mp ht with rfl | hmem
    · refine goodTok_run_append ?_ (fun c hc => mem_takeWhile_core hc)
        (lexLinked_fst_head _) (goodTail_lexLinked _)
      rw [List.takeWhile_cons, if_pos hc]
      simp
    · exact ih hmem
  | case3 c rest hc ih =>
    rw [lexAll, if_neg hc] at ht
    exact ih ht

theorem lexAll_skip {c : Char} (hc : isCoreChar c = false) (xs : List Char) :
    lexAll (c :: xs) = lexAll xs := by
  rw [lexAll, if_neg (by simp [hc])]

theorem lexAll_good_append {t : List Char} (hg : goodTok t = true)
    {ys : List Char} (hs : sepOk ys) : lexAll (t ++ ys) = t :: lexAll ys := by
  rw [goodTok] at hg
  simp only [Bool.and_eq_true, Bool.not_eq_true', List.isEmpty_eq_false] at hg
  obtain ⟨hrun, htail⟩ := hg
  have hsplit : List.takeWhile isCoreChar t ++ List.dropWhile isCoreChar t = t :=
    List.takeWhile_append_dropWhile _ _
  set run := List.takeWhile isCoreChar t with hrundef
  set tail := List.dropWhile isCoreChar t with htaildef
  obtain ⟨d, run', hd⟩ : ∃ d run', run = d :: run' := by
    cases hrun' : run with
    | nil => exact absurd hrun' hrun
    | cons d run' => exact ⟨d, run', rfl⟩
  have hrunall : ∀ c ∈ run, isCoreChar c = true := fun c hc => mem_takeWhile_core hc
  have hdcore : isCoreChar d = true := hrunall d (by rw [hd]; simp)
  have harr : t ++ ys = d :: (run' ++ (tail ++ ys)) := by
    conv_lhs => rw [← hsplit]
    simp [hd]
  have htailsep : headNotCore (tail ++ ys) := by
    cases htl : tail with
    | nil =>
      simp only [htl, List.nil_append]
      cases ys with
      | nil => trivial
      | cons s tl => exact hs.1
    | cons t0 ttl =>
      have hgt : goodTail (t0 :: ttl) = true := htl ▸ htail
      rw [goodTail] at hgt
      simp only [Bool.and_eq_true] at hgt
      exact isLinkChar_not_core hgt.1.1
  have hrun2 : ∀ c ∈ (d :: run'), isCoreChar c = true := by
    rw [← hd]; exact hrunall
  rw [harr, lexAll, if_pos hdcore]
  have hassoc : d :: (run' ++ (tail ++ ys)) = (d :: run') ++ (tail ++ ys) := by simp
  have htw : List.takeWhile isCoreChar (d :: (run' ++ (tail ++ ys))) = run := by
    rw [hassoc, takeWhile_all_append hrun2, (sepOk_not_core htailsep).1, hd,
      List.append_nil]
  have hdw : List.dropWhile isCoreChar (d :: (run' ++ (tail ++ ys))) = tail ++ ys := by
    rw [hassoc, dropWhile_all_append hrun2, (sepOk_not_core htailsep).2]
  rw [htw, hdw]
  show (run ++ (lexLinked (tail ++ ys)).1) :: lexAll (lexLinked (tail ++ ys)).2
      = t :: lexAll ys
  rw [lexLinked_goodTail hs htail]
  show (run ++ tail) :: lexAll ys = t :: lexAll ys
  rw [hsplit]

theorem lexAll_nil_iff (xs : List Char) :
    lexAll xs = [] ↔ ∀ c ∈ xs, isCoreChar c = false := by
  induction xs using lexAll.induct with
  | case1 => rw [lexAll_nil]; simp
  | case2 c rest hc r1 p ih =>
    rw [lexAll, if_pos hc]
    constructor
    · intro h; exact absurd h (by simp)
    · intro h
      exact absurd (h c (by simp)) (by simp [hc])
  | case3 c rest hc ih =>
    rw [lexAll, if_neg hc, ih]
    have hcf : isCoreChar c = false := by
      rw [← Bool.not_eq_true]
      exact hc
    constructor
    · intro h d hd
      rcases List.mem_cons.mp hd with rfl | hd2
      · exact hcf
      · exact h d hd2
    · intro h d hd
      exact h d (by simp [hd])

theorem goodTail_chars {u : List Char} (hg : goodTail u = true) :
    ∀ c ∈ u, isCoreChar c = true ∨ isLinkChar c = true := by
  induction u using goodTail.induct with
  | case1 => simp
  | case2 l rest ih =>
    rw [goodTail] at hg
    simp only [Bool.and_eq_true] at hg
    intro c hc
    rcases List.mem_cons.mp hc with rfl | hc2
    · exact Or.inr hg.1.1
    · conv at hc2 => rw [← List.takeWhile_append_dropWhile isCoreChar rest]
      rcases List.mem_append.mp hc2 with hmem | hmem
      · exact Or.inl (mem_takeWhile_core hmem)
      · exact ih hg.2 c hmem

theorem goodTok_chars {t : List Char} (hg : goodTok t = true) :
    ∀ c ∈ t, isCoreChar c = true ∨ isLinkChar c = true := by
  rw [goodTok] at hg
  simp only [Bool.and_eq_true] at hg
  intro c hc
  conv at hc => rw [← List.takeWhile_append_dropWhile isCoreChar t]
  rcases List.mem_append.mp hc with hmem | hmem
  · exact Or.inl (mem_takeWhile_core hmem)
  · exact goodTail_chars hg.2 c hmem

theorem goodTok_ne_nil {t : List Char} (hg : goodTok t = true) : t ≠ [] := by
  rintro rfl
  rw [goodTok] at hg
  simp at hg

theorem lexAll_joinSpace {ts : List (List Char)}
    (h : ∀ t ∈ ts, goodTok t = true) : lexAll (joinSpace ts) = ts := by
  induction ts with
  | nil => exact lexAll_nil
  | cons t ts ih =>
    cases ts with
    | nil =>
      show lexAll (joinSpace [t]) = [t]
      rw [joinSpace]
      have hsep : sepOk ([] : List Char) := trivial
      have := lexAll_good_append (h t (by simp)) hsep
      rw [List.append_nil] at this
      rw [this, lexAll_nil]
    | cons u ts2 =>
      rw [joinSpace]
      have hsep : sepOk (' ' :: joinSpace (u :: ts2)) := by
        constructor <;> decide
      rw [lexAll_good_append (h t (by simp)) hsep]
      rw [lexAll_skip (by decide)]
      rw [ih fun v hv => h v (by simp [hv])]

/-! ### Tokenization is unaffected by surrounding whitespace and by
re-lowercasing -/

/-- Characters that can neither start nor extend a token. -/
def idleChars (w : List Char) : Prop :=
  ∀ c ∈ w, isCoreChar c = false ∧ isLinkChar c = false

theorem lexLinked_append_idle {w : List Char} (hw : idleChars w) :
    ∀ u : List Char, lexLinked (u ++ w) = ((lexLinked u).1, (lexLinked u).2 ++ w) := by
  intro u
  induction u using lexLinked.induct with
  | case1 =>
    simp only [List.nil_append, lexLinked]
    cases w with
    | nil => simp only [lexLinked]
    | cons s tl =>
      cases tl with
      | nil => simp only [lexLinked]
      | cons d tl2 =>
        rw [lexLinked, if_neg]
        simp [(hw s (by simp)).2]
  | case2 c =>
    simp only [lexLinked]
    cases w with
    | nil => simp only [lexLinked, List.append_nil]
    | cons s tl =>
      show lexLinked (c :: s :: tl) = ([], c :: s :: tl)
      rw [lexLinked, if_neg]
      simp [(hw s (by simp)).1]
  | case3 l d rest hld r1 ih =>
    have harr : (l :: d :: rest) ++ w = l :: d :: (rest ++ w) := by simp
    rw [harr, lexLinked, if_pos hld, lexLinked, if_pos hld]
    have hwf : ∀ c ∈ w, isCoreChar c = false := fun c hc => (hw c hc).1
    have htw : List.takeWhile isCoreChar (d :: (rest ++ w))
        = List.takeWhile isCoreChar (d :: rest) := by
      rw [show d :: (rest ++ w) = (d :: rest) ++ w by simp]
      exact takeWhile_append_none hwf
    have hdw : List.dropWhile isCoreChar (d :: (rest ++ w))
        = List.dropWhile isCoreChar (d :: rest) ++ w := by
      rw [show d :: (rest ++ w) = (d :: rest) ++ w by simp]
      exact dropWhile_append_none hwf
    rw [htw, hdw]
    show (l :: (List.takeWhile isCoreChar (d :: rest) ++ (lexLinked (r1 ++ w)).1),
        (lexLinked (r1 ++ w)).2)
      = (l :: (List.takeWhile isCoreChar (d :: rest) ++ (lexLinked r1).1),
        (lexLinked r1).2 ++ w)
    rw [ih]
  | case4 l d rest hld =>
    have harr : (l :: d :: rest) ++ w = l :: d :: (rest ++ w) := by simp
    rw [harr, lexLinked, if_neg hld, lexLinked, if_neg hld]
    simp

theorem lexAll_append_idle {w : List Char} (hw : idleChars w) :
    ∀ xs : List Char, lexAll (xs ++ w) = lexAll xs := by
  intro xs
  induction xs using lexAll.induct with
  | case1 =>
    rw [List.nil_append, lexAll_nil, lexAll_nil_iff]
    exact fun c hc => (hw c hc).1
  | case2 c rest hc r1 p ih =>
    have harr : (c :: rest) ++ w = c :: (rest ++ w) := by simp
    rw [harr, lexAll, if_pos hc, lexAll, if_pos hc]
    have hwf : ∀ x ∈ w, isCoreChar x = false := fun x hx => (hw x hx).1
    have htw : List.takeWhile isCoreChar (c :: (rest ++ w))
        = List.takeWhile isCoreChar (c :: rest) := by
      rw [show c :: (rest ++ w) = (c :: rest) ++ w by simp]
      exact takeWhile_append_none hwf
    have hdw : List.dropWhile isCoreChar (c :: (rest ++ w))
        = List.dropWhile isCoreChar (c :: rest) ++ w := by
      rw [show c :: (rest ++ w) = (c :: rest) ++ w by simp]
      exact dropWhile_append_none hwf
    rw [htw, hdw]
    show (List.takeWhile isCoreChar (c :: rest) ++ (lexLinked (r1 ++ w)).1) ::
        lexAll (lexLinked (r1 ++ w)).2
      = (List.takeWhile isCoreChar (c :: rest) ++ (lexLinked r1).1) ::
        lexAll (lexLinked r1).2
    rw [lexLinked_append_idle hw r1]
    show (List.takeWhile isCoreChar (c :: rest) ++ (lexLinked r1).1) ::
        lexAll ((lexLinked r1).2 ++ w)
      = (List.takeWhile isCoreChar (c :: rest) ++ (lexLinked r1).1) ::
        lexAll (lexLinked r1).2
    rw [ih]
  | case3 c rest hc ih =>
    have harr : (c :: rest) ++ w = c :: (rest ++ w) := by simp
    rw [harr, lexAll, if_neg hc, lexAll, if_neg hc]
    exact ih

theorem isSpaceChar_idle {w : List Char} (hw : ∀ c ∈ w, isSpaceChar c = true) :
    idleChars w :=
  fun c hc => ⟨isSpaceChar_not_core (hw c hc), isSpaceChar_not_link (hw c hc)⟩

theorem lexAll_dropWhile_front (l : List Char) :
    lexAll (l.dropWhile isSpaceChar) = lexAll l := by
  induction l with
  | nil => rfl
  | cons c rest ih =>
    rw [List.dropWhile_cons]
    by_cases hc : isSpaceChar c = true
    · rw [if_pos (by simp [hc]), ih, lexAll_skip (isSpaceChar_not_core hc)]
    · rw [if_neg (by simp at hc ⊢; exact hc)]

theorem lexAll_pyStrip (l : List Char) : lexAll (pyStrip l) = lexAll l := by
  rw [pyStrip]
  set l1 := l.dropWhile isSpaceChar with hl1
  have hsplit : List.takeWhile isSpaceChar l1.reverse ++ List.dropWhile isSpaceChar l1.reverse
      = l1.reverse := List.takeWhile_append_dropWhile _ _
  have hdecomp : l1 = (List.dropWhile isSpaceChar l1.reverse).reverse ++
      (List.takeWhile isSpaceChar l1.reverse).reverse := by
    have := congrArg List.reverse hsplit
    rw [List.reverse_append, List.reverse_reverse] at this
    exact this.symm
  have hws : ∀ c ∈ (List.takeWhile isSpaceChar l1.reverse).reverse, isSpaceChar c = true := by
    intro c hc
    rw [List.mem_reverse] at hc
    revert hc
    generalize l1.reverse = m
    intro hc
    induction m with
    | nil => simp at hc
    | cons a m ihm =>
      rw [List.takeWhile_cons] at hc
      by_cases ha : isSpaceChar a = true
      · rw [if_pos (by simp [ha])] at hc
        rcases List.mem_cons.mp hc with rfl | hc2
        · exact ha
        · exact ihm hc2
      · rw [if_neg (by simp at ha ⊢; exact ha)] at hc
        simp at hc
  calc lexAll (List.dropWhile isSpaceChar l1.reverse).reverse
      = lexAll ((List.dropWhile isSpaceChar l1.reverse).reverse ++
          (List.takeWhile isSpaceChar l1.reverse).reverse) :=
        (lexAll_append_idle (isSpaceChar_idle hws) _).symm
    _ = lexAll l1 := by rw [← hdecomp]
    _ = lexAll l := lexAll_dropWhile_front l

/-! ### Lowercasing lemmas -/

theorem lowerStr_idem (s : List Char) : lowerStr (lowerStr s) = lowerStr s := by
  rw [lowerStr, lowerStr, List.map_map]
  exact List.map_congr_left fun c _ => lowerChar_idem c

theorem lowerStr_fix {s : List Char} (h : ∀ c ∈ s, lowerChar c = c) :
    lowerStr s = s := by
  rw [lowerStr]
  exact List.map_congr_left (fun c hc => h c hc) |>.trans (List.map_id _)

theorem pyStrip_lowerStr (s : List Char) :
    pyStrip (lowerStr s) = lowerStr (pyStrip s) := by
  have hps : (isSpaceChar ∘ lowerChar) = isSpaceChar := funext lowerChar_space
  rw [pyStrip, pyStrip, lowerStr, lowerStr]
  rw [List.dropWhile_map, hps, ← List.map_reverse, List.dropWhile_map, hps,
    ← List.map_reverse]

theorem dropWhile_head_false {α : Type} {p : α → Bool} {l : List α} {a : α}
    {tl : List α} (h : List.dropWhile p l = a :: tl) : p a = false := by
  induction l with
  | nil => simp at h
  | cons c rest ih =>
    rw [List.dropWhile_cons] at h
    split at h
    · exact ih h
    · next hc =>
      injection h with h1 h2
      subst h1
      simpa using hc

theorem dropWhile_head_not {α : Type} (p : α → Bool) (l : List α) :
    List.dropWhile p (List.dropWhile p l) = List.dropWhile p l := by
  cases h : List.dropWhile p l with
  | nil => rfl
  | cons a tl =>
    rw [List.dropWhile_cons, if_neg (by simp [dropWhile_head_false h])]

theorem front_back_fix {y : List Char} (hy : List.dropWhile isSpaceChar y = y) :
    List.dropWhile isSpaceChar ((y.reverse.dropWhile isSpaceChar).reverse)
      = (y.reverse.dropWhile isSpaceChar).reverse := by
  cases hb : (y.reverse.dropWhile isSpaceChar).reverse with
  | nil => rfl
  | cons a tl =>
    set w := (List.takeWhile isSpaceChar y.reverse).reverse with hwdef
    have h2 : (List.dropWhile isSpaceChar y.reverse).reverse ++ w = y := by
      have hs := congrArg List.reverse (List.takeWhile_append_dropWhile isSpaceChar y.reverse)
      rw [List.reverse_append, List.reverse_reverse] at hs
      exact hs
    rw [hb] at h2
    have hsplit : y = a :: (tl ++ w) := by
      rw [← h2]; simp
    have ha : isSpaceChar a = false := by
      by_contra hc
      rw [Bool.not_eq_false] at hc
      have hthis : List.dropWhile isSpaceChar y = y := hy
      rw [hsplit, List.dropWhile_cons, if_pos (by simp [hc])] at hthis
      have hlen := congrArg List.length hthis
      have hle := length_dropWhile_le isSpaceChar (tl ++ w)
      simp only [List.length_cons] at hlen
      omega
    rw [List.dropWhile_cons, if_neg (by simp [ha])]

theorem pyStrip_idem (l : List Char) : pyStrip (pyStrip l) = pyStrip l := by
  have hy : List.dropWhile isSpaceChar (List.dropWhile isSpaceChar l)
      = List.dropWhile isSpaceChar l := dropWhile_head_not _ _
  show ((List.dropWhile isSpaceChar (pyStrip l)).reverse.dropWhile isSpaceChar).reverse
      = pyStrip l
  have h1 : List.dropWhile isSpaceChar (pyStrip l) = pyStrip l := front_back_fix hy
  rw [h1]
  show ((((List.dropWhile isSpaceChar l).reverse.dropWhile
      isSpaceChar).reverse).reverse.dropWhile isSpaceChar).reverse = pyStrip l
  rw [List.reverse_reverse, dropWhile_head_not]
  rfl

/-! ### `normalize_term` round trip (claim C10) -/

theorem mem_joinSpace {c : Char} {ts : List (List Char)} (hc : c ∈ joinSpace ts) :
    c = ' ' ∨ ∃ t ∈ ts, c ∈ t := by
  induction ts with
  | nil => rw [joinSpace] at hc; simp at hc
  | cons t ts ih =>
    cases ts with
    | nil =>
      rw [joinSpace] at hc
      exact Or.inr ⟨t, by simp, hc⟩
    | cons u ts2 =>
      rw [joinSpace] at hc
      rcases List.mem_append.mp hc with hmem | hmem
      · exact Or.inr ⟨t, by simp, hmem⟩
      · rcases List.mem_cons.mp hmem with rfl | hmem2
        · exact Or.inl rfl
        · rcases ih hmem2 with h | ⟨v, hv, hcv⟩
          · exact Or.inl h
          · exact Or.inr ⟨v, by simp [hv], hcv⟩

theorem normalize_toks (X : List Char) :
    lexAll (lowerStr (lowerStr (pyStrip X))) = lexAll (lowerStr X) := by
  rw [lowerStr_idem, ← pyStrip_lowerStr, lexAll_pyStrip]

theorem lowerStr_joinSpace_fix {ts : List (List Char)}
    (h : ∀ t ∈ ts, goodTok t = true) : lowerStr (joinSpace ts) = joinSpace ts := by
  refine lowerStr_fix fun c hc => ?_
  rcases mem_joinSpace hc with rfl | ⟨t, ht, hct⟩
  · exact lowerChar_space_char
  · rcases goodTok_chars (h t ht) c hct with hcore | hlink
    · exact lowerChar_fix_core hcore
    · exact lowerChar_fix_link hlink

theorem normalizeTermL_idem (X : List Char) :
    normalizeTermL (normalizeTermL X) = normalizeTermL X := by
  simp only [normalizeTermL]
  cases hT : lexAll (lowerStr (lowerStr (pyStrip X))) with
  | nil =>
    simp only [List.isEmpty_nil, if_pos]
    have htoks : lexAll (lowerStr (lowerStr (pyStrip (lowerStr (pyStrip X))))) = [] := by
      rw [normalize_toks]
      exact hT
    rw [htoks]
    simp only [List.isEmpty_nil, if_pos]
    rw [pyStrip_lowerStr, pyStrip_idem, lowerStr_idem]
  | cons t0 ts0 =>
    simp only [List.isEmpty_cons, Bool.false_eq_true, if_neg, not_false_iff]
    have hTgood : ∀ t ∈ t0 :: ts0, goodTok t = true := by
      intro t ht
      exact @goodTok_of_mem_lexAll (lowerStr (lowerStr (pyStrip X))) t (by rw [hT]; exact ht)
    have hfix : lowerStr (joinSpace (t0 :: ts0)) = joinSpace (t0 :: ts0) :=
      lowerStr_joinSpace_fix hTgood
    have htoks : lexAll (lowerStr (lowerStr (pyStrip (joinSpace (t0 :: ts0)))))
        = t0 :: ts0 := by
      rw [normalize_toks, hfix, lexAll_joinSpace hTgood]
    rw [htoks]
    simp

theorem tokenize_normalizeTerm (x : String) :
    tokenize (normalizeTerm x) = tokenize x := by
  show (lexAll (lowerStr (normalizeTermL x.data))).map (fun t => String.mk t)
      = (lexAll (lowerStr x.data)).map (fun t => String.mk t)
  congr 1
  simp only [normalizeTermL]
  cases hT : lexAll (lowerStr (lowerStr (pyStrip x.data))) with
  | nil =>
    simp only [List.isEmpty_nil, if_pos]
    exact normalize_toks _
  | cons t0 ts0 =>
    simp only [List.isEmpty_cons, Bool.false_eq_true, if_neg, not_false_iff]
    have hTgood : ∀ t ∈ t0 :: ts0, goodTok t = true := by
      intro t ht
      exact @goodTok_of_mem_lexAll (lowerStr (lowerStr (pyStrip x.data))) t
        (by rw [hT]; exact ht)
    rw [lowerStr_joinSpace_fix hTgood, lexAll_joinSpace hTgood, ← normalize_toks]
    exact hT.symm

/-- C10: `normalize_term` is idempotent, and tokenizing a normalized term gives
the same token list as tokenizing the original input. -/
theorem claim_C10 (x : String) :
    normalizeTerm (normalizeTerm x) = normalizeTerm x ∧
      tokenize (normalizeTerm x) = tokenize x := by
  constructor
  · show String.mk (normalizeTermL (String.mk (normalizeTermL x.data)).data)
        = String.mk (normalizeTermL x.data)
    exact congrArg String.mk (normalizeTermL_idem x.data)
  · exact tokenize_normalizeTerm x

/-! ## Fusion engine (`app/services/fusion.py`)

Real-valued definitions model Python floats; they are `noncomputable` in Lean
because exact real arithmetic is, but every discrete part of the pipeline
remains executable. -/

noncomputable section

/-- `_clamp(value, lo, hi)`. -/
def clamp (value lo hi : ℝ) : ℝ := max lo (min hi value)

/-- `_compress_nonnegative(value) = tanh(log1p(max(0, value)))`. -/
def compressNonnegative (value : ℝ) : ℝ := Real.tanh (Real.log (1 + max 0 value))

/-- `_sigmoid(value)`. -/
def sigmoid (value : ℝ) : ℝ := 1 / (1 + Real.exp (-value))

/-- Feature-quantile mapping: a Python `dict[str, float]`, possibly missing
individual keys. -/
def QMap : Type := String → Option ℝ

/-- `_safe_quantile(feature_quantiles, key)`. -/
def safeQuantile (featureQuantiles : Option QMap) (key : String) : Option ℝ :=
  match featureQuantiles with
  | none => none
  | some m => m key

/-- `_calibrate_nonnegative_feature(value, p50, p90)`. -/
def calibrateNonnegativeFeature (value : ℝ) (p50 p90 : Option ℝ) : ℝ :=
  let baseline := compressNonnegative value
  match p50, p90 with
  | some p50, some p90 =>
    if p90 ≤ p50 then baseline
    else
      let spread := max (1e-6) (p90 - p50)
      let zScore := (value - p50) / spread
      let calibrated := sigmoid (1.2 * zScore)
      clamp ((0.45 * baseline) + (0.55 * calibrated)) 0 1
  | _, _ => baseline

/-- `FeatureVector`. -/
structure FeatureVector where
  lambdaGraph : ℝ
  lambdaCtx : ℝ
  severityMean : ℝ
  targetednessMean : ℝ
  reclaimedRate : ℝ
  trendVelocity : ℝ
  sampleSize : Nat

/-- The three-way risk band. -/
inductive Band
  | monitor
  | review
  | block
deriving DecidableEq

/-- `FusionOutput`. -/
structure FusionOutput where
  score : ℝ
  confidence : ℝ
  band : Band
  linearValue : ℝ
  modelVersion : String

/-- `FusionEngine` configuration (thresholds, coefficients, version). -/
structure FusionEngine where
  reviewThreshold : ℝ
  blockThreshold : ℝ
  modelVersion : String
  b0 : ℝ
  b1 : ℝ
  b2 : ℝ
  b3 : ℝ
  b4 : ℝ
  b5 : ℝ
  b6 : ℝ

/-- The `FusionEngine()` default configuration (`fusion_v1`). -/
def defaultEngine : FusionEngine :=
  ⟨0.35, 0.65, "fusion_v1", -0.8, 0.9, 0.7, 1.1, 1.0, 0.9, 0.4⟩

/-- `FusionEngine.fuse(features, feature_quantiles)`. -/
def FusionEngine.fuse (e : FusionEngine) (features : FeatureVector)
    (featureQuantiles : Option QMap) : FusionOutput :=
  let graphSignal := calibrateNonnegativeFeature features.lambdaGraph
    (safeQuantile featureQuantiles "eigen_graph_p50")
    (safeQuantile featureQuantiles "eigen_graph_p90")
  let ctxSignal := calibrateNonnegativeFeature features.lambdaCtx
    (safeQuantile featureQuantiles "eigen_ctx_p50")
    (safeQuantile featureQuantiles "eigen_ctx_p90")
  let linear := e.b0 + (e.b1 * graphSignal) + (e.b2 * ctxSignal)
    + (e.b3 * features.severityMean) + (e.b4 * features.targetednessMean)
    - (e.b5 * features.reclaimedRate) + (e.b6 * features.trendVelocity)
  let score := sigmoid linear
  let sampleStrength := min 1 ((features.sampleSize : ℝ) / 20)
  let confidence :=
    clamp (0.45 + (0.25 * |(score - 0.5) * 2|) + (0.2 * sampleStrength)
      - 0.1 * features.reclaimedRate) 0 1
  let band : Band :=
    if e.blockThreshold ≤ score then Band.block
    else if e.reviewThreshold ≤ score then Band.review
    else Band.monitor
  ⟨clamp score 0 1, confidence, band, linear, e.modelVersion⟩

/-! ## Score service helpers (`app/services/scoring.py`) -/

/-- Python `int(x)` on a float: truncation toward zero. -/
def pyInt (x : ℝ) : ℤ := if 0 ≤ x then ⌊x⌋ else -⌊-x⌋

/-- `tuned_band_thresholds(default_review, default_block, quantiles,
min_samples=80)`. -/
def tunedBandThresholds (defaultReview defaultBlock : ℝ)
    (quantiles : Option QMap) (minSamples : ℤ) : ℝ × ℝ :=
  match quantiles with
  | none => (defaultReview, defaultBlock)
  | some q =>
    let sampleCount := pyInt ((q "sample_count").getD 0)
    match q "score_p70", q "score_p90" with
    | some scoreP70, some scoreP90 =>
      if sampleCount < minSamples then (defaultReview, defaultBlock)
      else
        let review := clamp ((0.7 * defaultReview) + (0.3 * scoreP70)) 0.2 0.75
        let blockCandidate := (0.7 * defaultBlock) + (0.3 * scoreP90)
        let minBlock := review + 0.08
        let block := clamp (max blockCandidate minBlock) minBlock 0.95
        (review, block)
    | _, _ => (defaultReview, defaultBlock)

/-- `score_band(score, review_threshold, block_threshold)`. -/
def scoreBand (score reviewThreshold blockThreshold : ℝ) : Band :=
  if blockThreshold ≤ score then Band.block
  else if reviewThreshold ≤ score then Band.review
  else Band.monitor

end

/-- C4: `tuned_band_thresholds` returns the defaults unchanged whenever
quantiles are absent, `sample_count < 80`, or `score_p70`/`score_p90` is
missing; otherwise it returns
`review = clamp(0.7·r₀ + 0.3·p70, 0.2, 0.75)` and
`block = clamp(max(0.7·b₀ + 0.3·p90, review + 0.08), review + 0.08, 0.95)`,
and in the tuned case `block ≥ review + 0.08`. -/
theorem claim_C4 (r0 b0 : ℝ) (q : Option QMap) :
    (q = none → tunedBandThresholds r0 b0 q 80 = (r0, b0)) ∧
    (∀ m : QMap, q = some m →
      ((pyInt ((m "sample_count").getD 0) < 80 ∨ m "score_p70" = none ∨
          m "score_p90" = none) →
        tunedBandThresholds r0 b0 q 80 = (r0, b0)) ∧
      (∀ p70 p90 : ℝ, m "score_p70" = some p70 → m "score_p90" = some p90 →
        ¬ pyInt ((m "sample_count").getD 0) < 80 →
        tunedBandThresholds r0 b0 q 80 =
          (clamp ((0.7 * r0) + (0.3 * p70)) 0.2 0.75,
            clamp (max ((0.7 * b0) + (0.3 * p90))
                (clamp ((0.7 * r0) + (0.3 * p70)) 0.2 0.75 + 0.08))
              (clamp ((0.7 * r0) + (0.3 * p70)) 0.2 0.75 + 0.08) 0.95) ∧
        (tunedBandThresholds r0 b0 q 80).1 + 0.08 ≤
          (tunedBandThresholds r0 b0 q 80).2)) := by
  constructor
  · rintro rfl
    rfl
  · rintro m rfl
    constructor
    · intro h
      rcases h with h | h | h
      · rw [tunedBandThresholds]
        cases h70 : m "score_p70" with
        | none => rfl
        | some p70 =>
          cases h90 : m "score_p90" with
          | none => rfl
          | some p90 =>
            dsimp only
            rw [if_pos h]
      · rw [tunedBandThresholds, h]
      · rw [tunedBandThresholds, h]
        cases m "score_p70" <;> rfl
    · intro p70 p90 h70 h90 hcount
      have heq : tunedBandThresholds r0 b0 (some m) 80 =
          (clamp ((0.7 * r0) + (0.3 * p70)) 0.2 0.75,
            clamp (max ((0.7 * b0) + (0.3 * p90))
                (clamp ((0.7 * r0) + (0.3 * p70)) 0.2 0.75 + 0.08))
              (clamp ((0.7 * r0) + (0.3 * p70)) 0.2 0.75 + 0.08) 0.95) := by
        rw [tunedBandThresholds, h70, h90]
        dsimp only
        rw [if_neg hcount]
      refine ⟨heq, ?_⟩
      rw [heq]
      exact le_max_left _ _

/-- The quantile mapping of the concrete scenario used to witness C4. -/
noncomputable def qWitnessC4 : QMap := fun key =>
  if key = "sample_count" then some 160
  else if key = "score_p70" then some 0.52
  else if key = "score_p90" then some 0.82
  else none

/-- Witness for C4 at the concrete quantiles `{sample_count: 160,
score_p70: 0.52, score_p90: 0.82}` and defaults `(0.35, 0.65)`. -/
theorem claim_C4_witness :
    tunedBandThresholds 0.35 0.65 (some qWitnessC4) 80 = (0.401, 0.701) := by
  have h70 : qWitnessC4 "score_p70" = some 0.52 := rfl
  have h90 : qWitnessC4 "score_p90" = some 0.82 := rfl
  have hsc : (qWitnessC4 "sample_count").getD 0 = 160 := rfl
  have hcount : ¬ pyInt ((qWitnessC4 "sample_count").getD 0) < 80 := by
    rw [hsc, pyInt, if_pos (by norm_num)]
    have : ⌊(160 : ℝ)⌋ = 160 := by norm_num
    rw [this]
    norm_num
  obtain ⟨heq, _⟩ := ((claim_C4 0.35 0.65 (some qWitnessC4)).2 qWitnessC4 rfl).2
    0.52 0.82 h70 h90 hcount
  rw [heq]
  have hrev : clamp ((0.7 * (0.35 : ℝ)) + (0.3 * 0.52)) 0.2 0.75 = 0.401 := by
    rw [clamp]
    rw [min_eq_right (by norm_num), max_eq_right (by norm_num)]
    norm_num
  rw [hrev]
  have hblk : clamp (max ((0.7 * (0.65 : ℝ)) + (0.3 * 0.82)) ((0.401 : ℝ) + 0.08))
      ((0.401 : ℝ) + 0.08) 0.95 = 0.701 := by
    rw [max_eq_left (by norm_num), clamp]
    rw [min_eq_right (by norm_num), max_eq_right (by norm_num)]
    norm_num
  rw [hblk]

/-! ## Co-occurrence graph builder (`app/services/spectral.py`) -/

/-- `_DEFAULT_STOPWORDS`. -/
def defaultStopwords : List String :=
  ["a", "an", "and", "are", "as", "at", "be", "been", "but", "by", "for",
   "from", "had", "has", "have", "he", "her", "his", "i", "if", "in", "into",
   "is", "it", "its", "me", "my", "of", "on", "or", "our", "she", "that",
   "the", "their", "them", "they", "this", "to", "was", "we", "were", "with",
   "you", "your"]

/-- Python string `<` on character lists (code-point lexicographic order). -/
def charListLt : List Char → List Char → Bool
  | [], [] => false
  | [], _ :: _ => true
  | _ :: _, [] => false
  | x :: xs, y :: ys =>
    if x.toNat < y.toNat then true
    else if y.toNat < x.toNat then false
    else charListLt xs ys

/-- Python string `<`. -/
def strLt (a b : String) : Bool := charListLt a.data b.data

/-- `_filter_tokens(text, stopwords, min_token_length)`. -/
def filterTokens (text : String) (stopwords : List String)
    (minTokenLength : Nat) : List String :=
  (tokenize text).filter fun token =>
    decide (minTokenLength ≤ token.length) && !(stopwords.contains token)

/-- The lexicographically ordered pair
`(token_a, token_b) if token_a < token_b else (token_b, token_a)`. -/
def orderPair (a b : String) : String × String :=
  if strLt a b then (a, b) else (b, a)

/-- Dictionary write keeping only the maximum proximity per pair
(`if existing is None or proximity > existing`). -/
def updatePairMax (m : List ((String × String) × ℚ)) (pair : String × String)
    (proximity : ℚ) : List ((String × String) × ℚ) :=
  match m.find? (fun e => e.1 = pair) with
  | none => m ++ [(pair, proximity)]
  | some e =>
    if e.2 < proximity then
      m.map fun e2 => if e2.1 = pair then (pair, proximity) else e2
    else m

/-- The per-context window scan of `build_cooccurrence_graph`: for each
position `left`, inspect positions in `(left, min(n, left + window_size))`,
skip equal tokens, and keep the maximum proximity `1/(right-left)` per
ordered pair. -/
def contextPairProx (tokens : List String) (windowSize : Nat) :
    List ((String × String) × ℚ) :=
  (List.range tokens.length).foldl
    (fun m left =>
      let rightEdge := min tokens.length (left + windowSize)
      (List.range' (left + 1) (rightEdge - (left + 1))).foldl
        (fun m right =>
          let tokenA := tokens.getD left ""
          let tokenB := tokens.getD right ""
          if tokenA = tokenB then m
          else
            updatePairMax m (orderPair tokenA tokenB)
              (1 / ((right : ℚ) - (left : ℚ))))
        m)
    []

/-- `Counter.update` with one key: increment, inserting the key at count 1
when absent. -/
def bumpPairCount (m : List ((String × String) × Nat)) (key : String × String) :
    List ((String × String) × Nat) :=
  match m.find? (fun e => e.1 = key) with
  | none => m ++ [(key, 1)]
  | some _ => m.map fun e2 => if e2.1 = key then (e2.1, e2.2 + 1) else e2

/-- `Counter.update` with one token key. -/
def bumpTokenCount (m : List (String × Nat)) (key : String) :
    List (String × Nat) :=
  match m.find? (fun e => e.1 = key) with
  | none => m ++ [(key, 1)]
  | some _ => m.map fun e2 => if e2.1 = key then (e2.1, e2.2 + 1) else e2

/-- `defaultdict(float)` accumulation `m[key] += v`. -/
def addPairProx (m : List ((String × String) × ℚ)) (key : String × String)
    (v : ℚ) : List ((String × String) × ℚ) :=
  match m.find? (fun e => e.1 = key) with
  | none => m ++ [(key, v)]
  | some _ => m.map fun e2 => if e2.1 = key then (e2.1, e2.2 + v) else e2

/-- Distinct elements in first-occurrence order (`set(tokens)` iterated for
`Counter.update`; only which tokens occur matters for the counts). -/
def distinctTokens (tokens : List String) : List String :=
  tokens.foldl (fun acc t => if acc.contains t then acc else acc ++ [t]) []

/-- The mutable counters built by the per-context loop of
`build_cooccurrence_graph`. -/
structure CoocAccum where
  pairDocFreq : List ((String × String) × Nat)
  pairProxSum : List ((String × String) × ℚ)
  tokenDocFreq : List (String × Nat)
  contextCount : Nat
deriving DecidableEq

/-- One iteration of the `for text in contexts` loop. -/
def processContext (windowSize minTokenLength : Nat) (stopwords : List String)
    (acc : CoocAccum) (text : String) : CoocAccum :=
  let tokens := filterTokens text stopwords minTokenLength
  if tokens.isEmpty then acc
  else
    let contextPairs := contextPairProx tokens windowSize
    { pairDocFreq :=
        contextPairs.foldl (fun m e => bumpPairCount m e.1) acc.pairDocFreq
      pairProxSum :=
        contextPairs.foldl (fun m e => addPairProx m e.1 e.2) acc.pairProxSum
      tokenDocFreq :=
        (distinctTokens tokens).foldl bumpTokenCount acc.tokenDocFreq
      contextCount := acc.contextCount + 1 }

/-- Counter lookup with default 0. -/
def lookupTokenNat (m : List (String × Nat)) (key : String) : Nat :=
  ((m.find? fun e => e.1 = key).map fun e => e.2).getD 0

/-- Pair-counter lookup with default 0. -/
def lookupPairNat (m : List ((String × String) × Nat)) (key : String × String) :
    Nat :=
  ((m.find? fun e => e.1 = key).map fun e => e.2).getD 0

/-- Proximity-sum lookup with default 0. -/
def lookupPairRat (m : List ((String × String) × ℚ)) (key : String × String) :
    ℚ :=
  ((m.find? fun e => e.1 = key).map fun e => e.2).getD 0

/-- `CooccurrenceGraph`: the adjacency is a list of oriented weighted entries
(the dict-of-dicts stores each undirected edge as the two writes
`adj[a][b] = w` and `adj[b][a] = w`). -/
structure CooccurrenceGraph where
  adjacency : List ((String × String) × ℝ)
  tokenDocFrequency : List (String × Nat)
  contextCount : Nat

noncomputable section

/-- The edge weight `max(0, pmi) + support·mean_proximity` of one counted
pair. -/
def pairPpmi (acc : CoocAccum) (ent : (String × String) × Nat) : ℝ :=
  let dfA := lookupTokenNat acc.tokenDocFreq ent.1.1
  let dfB := lookupTokenNat acc.tokenDocFreq ent.1.2
  let pairCount := ent.2
  let pmi := Real.log (((pairCount : ℝ) * (acc.contextCount : ℝ))
    / ((dfA : ℝ) * (dfB : ℝ)))
  let support := (pairCount : ℝ) / (acc.contextCount : ℝ)
  let meanProximity := ((lookupPairRat acc.pairProxSum ent.1 : ℚ) : ℝ)
    / (pairCount : ℝ)
  max 0 pmi + (support * meanProximity)

/-- The edge-emission step of `build_cooccurrence_graph`: skip pairs with a
zero document frequency, compute `max(0, pmi) + support·mean_proximity`, and
store both orientations when the weight is positive. -/
def adjStep (acc : CoocAccum) (g : List ((String × String) × ℝ))
    (ent : (String × String) × Nat) : List ((String × String) × ℝ) :=
  if lookupTokenNat acc.tokenDocFreq ent.1.1 = 0 ∨
      lookupTokenNat acc.tokenDocFreq ent.1.2 = 0 then g
  else
    let ppmi := pairPpmi acc ent
    if ppmi ≤ 0 then g
    else g ++ [((ent.1.1, ent.1.2), ppmi), ((ent.1.2, ent.1.1), ppmi)]

/-- `build_cooccurrence_graph` after the argument check. -/
def buildGraphCore (contexts : List String)
    (windowSize minTokenLength : Nat) (stopwords : List String) :
    CooccurrenceGraph :=
  let acc := contexts.foldl
    (processContext windowSize minTokenLength stopwords) ⟨[], [], [], 0⟩
  if acc.contextCount = 0 ∨ acc.pairDocFreq.isEmpty then
    ⟨[], acc.tokenDocFreq, acc.contextCount⟩
  else
    ⟨acc.pairDocFreq.foldl (adjStep acc) [], acc.tokenDocFreq, acc.contextCount⟩

/-- `build_cooccurrence_graph(contexts, window_size, min_token_length,
stopwords)`; `window_size < 2` raises (`ValueError`). -/
def buildCooccurrenceGraph (contexts : List String)
    (windowSize minTokenLength : Nat) (stopwords : List String) :
    Except String CooccurrenceGraph :=
  if windowSize < 2 then Except.error "window_size must be >= 2"
  else Except.ok (buildGraphCore contexts windowSize minTokenLength stopwords)

end

/-! ### Graph builder invariants (claim C5) -/

theorem charListLt_irrefl (xs : List Char) : charListLt xs xs = false := by
  induction xs with
  | nil => rfl
  | cons x xs ih =>
    rw [charListLt]
    simp [ih]

theorem charListLt_total {xs ys : List Char} (hne : xs ≠ ys) :
    charListLt xs ys = true ∨ charListLt ys xs = true := by
  induction xs generalizing ys with
  | nil =>
    cases ys with
    | nil => exact absurd rfl hne
    | cons y ys => exact Or.inl rfl
  | cons x xs ih =>
    cases ys with
    | nil => exact Or.inr rfl
    | cons y ys =>
      rw [charListLt, charListLt]
      by_cases h1 : x.toNat < y.toNat
      · left; rw [if_pos h1]
      · by_cases h2 : y.toNat < x.toNat
        · right; rw [if_pos h2]
        · have hx : x = y := by
            have hxy : x ≤ y := (charLe_iff x y).mpr (by omega)
            have hyx : y ≤ x := (charLe_iff y x).mpr (by omega)
            exact Char.le_antisymm hxy hyx
          subst hx
          have hne2 : xs ≠ ys := fun hcontra => hne (by rw [hcontra])
          rcases ih hne2 with h | h
          · left; rw [if_neg h1, if_neg h1]; exact h
          · right; rw [if_neg h1, if_neg h1]; exact h

theorem strLt_total {a b : String} (h : a ≠ b) :
    strLt a b = true ∨ strLt b a = true := by
  refine charListLt_total fun hdata => h ?_
  cases a with
  | mk da =>
    cases b with
    | mk db => exact congrArg String.mk hdata

theorem strLt_ne {a b : String} (h : strLt a b = true) : a ≠ b := by
  rintro rfl
  rw [strLt, charListLt_irrefl] at h
  exact Bool.false_ne_true h

theorem orderPair_lt {a b : String} (h : a ≠ b) :
    strLt (orderPair a b).1 (orderPair a b).2 = true := by
  rw [orderPair]
  by_cases hab : strLt a b = true
  · rw [if_pos hab]; exact hab
  · rw [if_neg hab]
    rcases strLt_total h with hl | hr
    · exact absurd hl hab
    · exact hr

theorem foldl_inv_mem {σ α : Type} {P : σ → Prop} {f : σ → α → σ} :
    ∀ (l : List α) (s : σ), (∀ a ∈ l, ∀ s, P s → P (f s a)) → P s →
      P (l.foldl f s) := by
  intro l
  induction l with
  | nil => intro s _ hs; exact hs
  | cons a l ih =>
    intro s hstep hs
    exact ih (f s a) (fun x hx s2 hs2 => hstep x (by simp [hx]) s2 hs2)
      (hstep a (by simp) s hs)

theorem updatePairMax_keys {P : String × String → Prop}
    {m : List ((String × String) × ℚ)} (hm : ∀ e ∈ m, P e.1)
    {pair : String × String} (hp : P pair) (v : ℚ) :
    ∀ e ∈ updatePairMax m pair v, P e.1 := by
  intro e he
  rw [updatePairMax] at he
  cases hfind : m.find? (fun e => e.1 = pair) with
  | none =>
    rw [hfind] at he
    rcases List.mem_append.mp he with hmem | hmem
    · exact hm e hmem
    · simp at hmem
      rw [hmem]
      exact hp
  | some e0 =>
    rw [hfind] at he
    dsimp only at he
    split at he
    · rcases List.mem_map.mp he with ⟨e2, he2, heq⟩
      by_cases hcase : e2.1 = pair
      · rw [if_pos hcase] at heq
        rw [← heq]
        exact hp
      · rw [if_neg hcase] at heq
        rw [← heq]
        exact hm e2 he2
    · exact hm e he

theorem contextPairProx_keys (tokens : List String) (windowSize : Nat) :
    ∀ e ∈ contextPairProx tokens windowSize, strLt e.1.1 e.1.2 = true := by
  rw [contextPairProx]
  refine foldl_inv_mem
    (P := fun m : List ((String × String) × ℚ) =>
      ∀ e ∈ m, strLt e.1.1 e.1.2 = true)
    _ _ ?_ (by simp)
  intro left _ m hm
  refine foldl_inv_mem
    (P := fun m : List ((String × String) × ℚ) =>
      ∀ e ∈ m, strLt e.1.1 e.1.2 = true)
    _ _ ?_ hm
  intro right _ m2 hm2
  dsimp only
  split
  · exact hm2
  · next hne =>
    exact updatePairMax_keys (P := fun p => strLt p.1 p.2 = true) hm2
      (orderPair_lt hne) _

theorem bumpPairCount_keys {P : String × String → Prop}
    {m : List ((String × String) × Nat)} (hm : ∀ e ∈ m, P e.1)
    {key : String × String} (hk : P key) :
    ∀ e ∈ bumpPairCount m key, P e.1 := by
  intro e he
  rw [bumpPairCount] at he
  cases hfind : m.find? (fun e => e.1 = key) with
  | none =>
    rw [hfind] at he
    rcases List.mem_append.mp he with hmem | hmem
    · exact hm e hmem
    · simp at hmem
      rw [hmem]
      exact hk
  | some e0 =>
    rw [hfind] at he
    dsimp only at he
    rcases List.mem_map.mp he with ⟨e2, he2, heq⟩
    by_cases hcase : e2.1 = key
    · rw [if_pos hcase] at heq
      rw [← heq]
      exact hm e2 he2
    · rw [if_neg hcase] at heq
      rw [← heq]
      exact hm e2 he2

theorem pairDocFreq_keys (contexts : List String)
    (windowSize minTokenLength : Nat) (stopwords : List String) :
    ∀ e ∈ (contexts.foldl (processContext windowSize minTokenLength stopwords)
        ⟨[], [], [], 0⟩).pairDocFreq,
      strLt e.1.1 e.1.2 = true := by
  refine foldl_inv_mem
    (P := fun acc : CoocAccum => ∀ e ∈ acc.pairDocFreq, strLt e.1.1 e.1.2 = true)
    _ _ ?_ (by simp)
  intro text _ acc hacc
  rw [processContext]
  split
  · exact hacc
  · dsimp only
    refine foldl_inv_mem
      (P := fun m : List ((String × String) × Nat) =>
        ∀ e ∈ m, strLt e.1.1 e.1.2 = true) _ _ ?_ hacc
    intro ent hent m hm
    exact bumpPairCount_keys (P := fun p => strLt p.1 p.2 = true) hm
      (contextPairProx_keys _ _ ent hent)

theorem adjStep_subset {acc : CoocAccum} {g : List ((String × String) × ℝ)}
    {ent : (String × String) × Nat} {e : (String × String) × ℝ} (he : e ∈ g) :
    e ∈ adjStep acc g ent := by
  rw [adjStep]
  split
  · exact he
  · dsimp only
    split
    · exact he
    · simp [he]

theorem mem_adjStep {acc : CoocAccum} {g : List ((String × String) × ℝ)}
    {ent : (String × String) × Nat} {e : (String × String) × ℝ}
    (he : e ∈ adjStep acc g ent) :
    e ∈ g ∨
      (¬ (lookupTokenNat acc.tokenDocFreq ent.1.1 = 0 ∨
          lookupTokenNat acc.tokenDocFreq ent.1.2 = 0) ∧
        0 < pairPpmi acc ent ∧
        (e = ((ent.1.1, ent.1.2), pairPpmi acc ent) ∨
          e = ((ent.1.2, ent.1.1), pairPpmi acc ent))) := by
  rw [adjStep] at he
  split at he
  · exact Or.inl he
  · next hdf =>
    dsimp only at he
    split at he
    · exact Or.inl he
    · next hw =>
      rcases List.mem_append.mp he with hmem | hmem
      · exact Or.inl hmem
      · refine Or.inr ⟨hdf, by linarith [not_le.mp hw], ?_⟩
        rcases List.mem_cons.mp hmem with rfl | hmem2
        · exact Or.inl rfl
        · rcases List.mem_cons.mp hmem2 with rfl | hmem3
          · exact Or.inr rfl
          · simp at hmem3

theorem foldl_adjStep_mono {acc : CoocAccum} {e : (String × String) × ℝ} :
    ∀ (l : List ((String × String) × Nat)) (g0 : List ((String × String) × ℝ)),
      e ∈ g0 → e ∈ l.foldl (adjStep acc) g0 := by
  intro l
  induction l with
  | nil => intro g0 h; exact h
  | cons a l ih =>
    intro g0 h
    exact ih (adjStep acc g0 a) (adjStep_subset h)

theorem foldl_adjStep_emits {acc : CoocAccum} {ent : (String × String) × Nat}
    (hdf : ¬ (lookupTokenNat acc.tokenDocFreq ent.1.1 = 0 ∨
      lookupTokenNat acc.tokenDocFreq ent.1.2 = 0))
    (hw : 0 < pairPpmi acc ent) :
    ∀ (l : List ((String × String) × Nat)) (g0 : List ((String × String) × ℝ)),
      ent ∈ l →
      ((ent.1.1, ent.1.2), pairPpmi acc ent) ∈ l.foldl (adjStep acc) g0 ∧
      ((ent.1.2, ent.1.1), pairPpmi acc ent) ∈ l.foldl (adjStep acc) g0 := by
  intro l
  induction l with
  | nil => intro g0 h; simp at h
  | cons a l ih =>
    intro g0 hmem
    rcases List.mem_cons.mp hmem with rfl | hmem2
    · have hstep : ((ent.1.1, ent.1.2), pairPpmi acc ent) ∈ adjStep acc g0 ent ∧
          ((ent.1.2, ent.1.1), pairPpmi acc ent) ∈ adjStep acc g0 ent := by
        rw [adjStep, if_neg hdf]
        dsimp only
        rw [if_neg (not_le.mpr hw)]
        constructor <;> simp
      exact ⟨foldl_adjStep_mono l _ hstep.1, foldl_adjStep_mono l _ hstep.2⟩
    · exact ih (adjStep acc g0 a) hmem2

theorem mem_foldl_adjStep {acc : CoocAccum} {e : (String × String) × ℝ} :
    ∀ (l : List ((String × String) × Nat)) (g0 : List ((String × String) × ℝ)),
      e ∈ l.foldl (adjStep acc) g0 →
      e ∈ g0 ∨ ∃ ent ∈ l,
        ¬ (lookupTokenNat acc.tokenDocFreq ent.1.1 = 0 ∨
            lookupTokenNat acc.tokenDocFreq ent.1.2 = 0) ∧
        0 < pairPpmi acc ent ∧
        (e = ((ent.1.1, ent.1.2), pairPpmi acc ent) ∨
          e = ((ent.1.2, ent.1.1), pairPpmi acc ent)) := by
  intro l
  induction l with
  | nil => intro g0 h; exact Or.inl h
  | cons a l ih =>
    intro g0 h
    rcases ih (adjStep acc g0 a) h with hbase | ⟨ent, hent, hrest⟩
    · rcases mem_adjStep hbase with hg | hfacts
      · exact Or.inl hg
      · exact Or.inr ⟨a, by simp, hfacts⟩
    · exact Or.inr ⟨ent, by simp [hent], hrest⟩

/-- C5: under the precondition `window_size ≥ 2`, every stored adjacency
entry of `build_cooccurrence_graph` has a strictly positive weight, the
symmetric entry with the same weight is also stored, there are no self-loops,
and both endpoints have token-document-frequency at least 1. -/
theorem claim_C5 (contexts : List String) (windowSize minTokenLength : Nat)
    (stopwords : List String) (hws : 2 ≤ windowSize) (g : CooccurrenceGraph)
    (hg : buildCooccurrenceGraph contexts windowSize minTokenLength stopwords
      = Except.ok g) :
    ∀ e ∈ g.adjacency,
      0 < e.2 ∧
      e.1.1 ≠ e.1.2 ∧
      ((e.1.2, e.1.1), e.2) ∈ g.adjacency ∧
      1 ≤ lookupTokenNat g.tokenDocFrequency e.1.1 ∧
      1 ≤ lookupTokenNat g.tokenDocFrequency e.1.2 := by
  rw [buildCooccurrenceGraph, if_neg (by omega)] at hg
  injection hg with hg
  subst hg
  intro e he
  rw [buildGraphCore] at he ⊢
  set acc := contexts.foldl
    (processContext windowSize minTokenLength stopwords) ⟨[], [], [], 0⟩ with hacc
  split at he
  · simp at he
  · next hcond =>
    rw [if_neg hcond]
    dsimp only at he ⊢
    rcases mem_foldl_adjStep _ _ he with hnil | ⟨ent, hent, hdf, hwpos, hor⟩
    · simp at hnil
    · have hkey : strLt ent.1.1 ent.1.2 = true := by
        have := pairDocFreq_keys contexts windowSize minTokenLength stopwords
        rw [← hacc] at this
        exact this ent hent
      have hne : ent.1.1 ≠ ent.1.2 := strLt_ne hkey
      have hboth := foldl_adjStep_emits hdf hwpos acc.pairDocFreq [] hent
      push_neg at hdf
      rcases hor with rfl | rfl
      · exact ⟨hwpos, hne, hboth.2, Nat.one_le_iff_ne_zero.mpr hdf.1,
          Nat.one_le_iff_ne_zero.mpr hdf.2⟩
      · exact ⟨hwpos, hne.symm, hboth.1, Nat.one_le_iff_ne_zero.mpr hdf.2,
          Nat.one_le_iff_ne_zero.mpr hdf.1⟩

/-- Witness for C5: the default-argument build on the single context
`"alpha beta"`. -/
theorem claim_C5_witness :
    2 ≤ 6 ∧
    ∀ e ∈ (buildGraphCore ["alpha beta"] 6 2 defaultStopwords).adjacency,
      0 < e.2 ∧
      e.1.1 ≠ e.1.2 ∧
      ((e.1.2, e.1.1), e.2) ∈
        (buildGraphCore ["alpha beta"] 6 2 defaultStopwords).adjacency ∧
      1 ≤ lookupTokenNat
        (buildGraphCore ["alpha beta"] 6 2 defaultStopwords).tokenDocFrequency
        e.1.1 ∧
      1 ≤ lookupTokenNat
        (buildGraphCore ["alpha beta"] 6 2 defaultStopwords).tokenDocFrequency
        e.1.2 :=
  ⟨by norm_num,
    claim_C5 ["alpha beta"] 6 2 defaultStopwords (by norm_num) _ rfl⟩

/-! ## Ego-subgraph BFS (`_ego_nodes`)

The Python function iterates over `set` objects and dict keys; the model
iterates the frontier in insertion order and neighbours in adjacency-entry
order, one deterministic choice among those the source leaves to `set`
iteration order (the spec requires a deterministic order).  All claimed
properties are insensitive to that choice. -/

/-- The key set of the adjacency dict: nodes with at least one stored edge. -/
def adjKeys (adj : List ((String × String) × ℝ)) : List String :=
  adj.map fun e => e.1.1

/-- `graph.get(node, {})` keys: the stored neighbours of `node`. -/
def neighborsOf (adj : List ((String × String) × ℝ)) (node : String) :
    List String :=
  (adj.filter fun e => e.1.1 = node).map fun e => e.1.2

/-- The inner neighbour loop of `_ego_nodes`: add unvisited neighbours to
`visited` and the next frontier, returning early (`Sum.inl`) with the visited
set as soon as it reaches `max_nodes`. -/
def addNeighbors (maxNodes : Nat) :
    List String → List String → List String →
    (List String ⊕ (List String × List String))
  | [], visited, nextFrontier => Sum.inr (visited, nextFrontier)
  | n :: rest, visited, nextFrontier =>
    if visited.contains n then addNeighbors maxNodes rest visited nextFrontier
    else
      let visited2 := visited ++ [n]
      let nextFrontier2 := nextFrontier ++ [n]
      if maxNodes ≤ visited2.length then Sum.inl visited2
      else addNeighbors maxNodes rest visited2 nextFrontier2

/-- The `for node in frontier` loop of `_ego_nodes`. -/
def processFrontier (maxNodes : Nat) (adj : List ((String × String) × ℝ)) :
    List String → List String → List String →
    (List String ⊕ (List String × List String))
  | [], visited, nextFrontier => Sum.inr (visited, nextFrontier)
  | node :: rest, visited, nextFrontier =>
    match addNeighbors maxNodes (neighborsOf adj node) visited nextFrontier with
    | Sum.inl v => Sum.inl v
    | Sum.inr (v, nf2) => processFrontier maxNodes adj rest v nf2

/-- The `for _ in range(hops)` loop of `_ego_nodes`, with the
`if not next_frontier: break` check. -/
def bfsLoop (maxNodes : Nat) (adj : List ((String × String) × ℝ)) :
    Nat → List String → List String → List String
  | 0, visited, _ => visited
  | Nat.succ hops, visited, frontier =>
    match processFrontier maxNodes adj frontier visited [] with
    | Sum.inl v => v
    | Sum.inr (v, nf) =>
      if nf.isEmpty then v else bfsLoop maxNodes adj hops v nf

/-- Python string `<=`, the order of `sorted`. -/
def strLe (a b : String) : Bool := !strLt b a

/-- `sorted(visited)` ascending. -/
def sortStrings (l : List String) : List String := l.mergeSort strLe

/-- `_ego_nodes(graph, center, hops, max_nodes)`. -/
def egoNodes (adj : List ((String × String) × ℝ)) (center : String)
    (hops maxNodes : Nat) : List String :=
  if (adjKeys adj).contains center then
    sortStrings (bfsLoop maxNodes adj hops [center] [center])
  else []

/-- Nodes within `k` breadth-first steps of the center. -/
def ball (adj : List ((String × String) × ℝ)) (center : String) :
    Nat → List String
  | 0 => [center]
  | Nat.succ k => ball adj center k ++ (ball adj center k).flatMap (neighborsOf adj)

/-! ### BFS invariants (claim C6) -/

theorem contains_iff_mem {l : List String} {a : String} :
    l.contains a = true ↔ a ∈ l := by
  induction l with
  | nil => simp
  | cons x rest ih =>
    simp [List.contains] at ih ⊢

theorem charListLt_trans {xs ys zs : List Char}
    (h1 : charListLt xs ys = true) (h2 : charListLt ys zs = true) :
    charListLt xs zs = true := by
  induction xs generalizing ys zs with
  | nil =>
    cases ys with
    | nil => exact absurd h1 (by rw [charListLt_irrefl]; simp)
    | cons y ys =>
      cases zs with
      | nil => rw [charListLt] at h2; exact absurd h2 (by simp)
      | cons z zs => rfl
  | cons x xs ih =>
    cases ys with
    | nil => rw [charListLt] at h1; exact absurd h1 (by simp)
    | cons y ys =>
      cases zs with
      | nil => rw [charListLt] at h2; exact absurd h2 (by simp)
      | cons z zs =>
        rw [charListLt] at h1 h2 ⊢
        by_cases hxy : x.toNat < y.toNat
        · by_cases hyz : y.toNat < z.toNat
          · rw [if_pos (by omega)]
          · rw [if_neg hyz] at h2
            by_cases hzy : z.toNat < y.toNat
            · rw [if_pos hzy] at h2; exact absurd h2 (by simp)
            · rw [if_pos (by omega)]
        · rw [if_neg hxy] at h1
          by_cases hyx : y.toNat < x.toNat
          · rw [if_pos hyx] at h1; exact absurd h1 (by simp)
          · rw [if_neg hyx] at h1
            by_cases hyz : y.toNat < z.toNat
            · rw [if_pos (by omega)]
            · rw [if_neg hyz] at h2
              by_cases hzy : z.toNat < y.toNat
              · rw [if_pos hzy] at h2; exact absurd h2 (by simp)
              · rw [if_neg hzy] at h2
                rw [if_neg (by omega), if_neg (by omega)]
                exact ih h1 h2

theorem strLe_trans {a b c : String} (h1 : strLe a b = true)
    (h2 : strLe b c = true) : strLe a c = true := by
  rw [strLe, Bool.not_eq_true', Bool.eq_false_iff] at h1 h2 ⊢
  intro hca
  by_cases hab : a = b
  · subst hab
    exact h2 hca
  · rcases strLt_total hab with hl | hr
    · by_cases hbc : b = c
      · subst hbc
        exact h1 hca
      · rcases strLt_total hbc with hl2 | hr2
        · have hcc := charListLt_trans (charListLt_trans hl hl2) hca
          rw [charListLt_irrefl] at hcc
          exact Bool.false_ne_true hcc
        · exact h2 hr2
    · exact h1 hr

theorem strLe_total (a b : String) : (strLe a b || strLe b a) = true := by
  rw [strLe, strLe]
  by_cases hab : a = b
  · subst hab
    rw [strLt, charListLt_irrefl]
    simp
  · rcases strLt_total hab with hl | hr
    · have hfa : strLt b a = false := by
        rw [Bool.eq_false_iff]
        intro hba
        have hcc := charListLt_trans hl hba
        rw [charListLt_irrefl] at hcc
        exact Bool.false_ne_true hcc
      simp [hfa]
    · have hfa : strLt a b = false := by
        rw [Bool.eq_false_iff]
        intro hab2
        have hcc := charListLt_trans hr hab2
        rw [charListLt_irrefl] at hcc
        exact Bool.false_ne_true hcc
      simp [hfa]

theorem addNeighbors_facts (maxNodes : Nat) (nbrs : List String) :
    ∀ (visited nf : List String),
      (∀ v, addNeighbors maxNodes nbrs visited nf = Sum.inl v →
        (∀ x ∈ v, x ∈ visited ∨ x ∈ nbrs) ∧ (∀ x ∈ visited, x ∈ v) ∧
        (visited.length < maxNodes → v.length ≤ maxNodes)) ∧
      (∀ v nf2, addNeighbors maxNodes nbrs visited nf = Sum.inr (v, nf2) →
        (∀ x ∈ v, x ∈ visited ∨ x ∈ nbrs) ∧ (∀ x ∈ visited, x ∈ v) ∧
        (visited.length < maxNodes → v.length < maxNodes) ∧
        (∀ x ∈ nf2, x ∈ nf ∨ x ∈ nbrs)) := by
  induction nbrs with
  | nil =>
    intro visited nf
    constructor
    · intro v hv
      rw [addNeighbors] at hv
      exact absurd hv (by simp)
    · intro v nf2 hv
      rw [addNeighbors] at hv
      injection hv with hv
      injection hv with h1 h2
      subst h1; subst h2
      exact ⟨fun x hx => Or.inl hx, fun x hx => hx, fun h => h,
        fun x hx => Or.inl hx⟩
  | cons n rest ih =>
    intro visited nf
    constructor
    · intro v hv
      rw [addNeighbors] at hv
      split at hv
      · next hcont =>
        obtain ⟨hall, hsub, hlen⟩ := (ih visited nf).1 v hv
        refine ⟨?_, hsub, hlen⟩
        intro x hx
        rcases hall x hx with h | h
        · exact Or.inl h
        · exact Or.inr (by simp [h])
      · dsimp only at hv
        split at hv
        · next hcap =>
          injection hv with hv
          subst hv
          refine ⟨?_, fun x hx => by simp [hx], ?_⟩
          · intro x hx
            rcases List.mem_append.mp hx with h | h
            · exact Or.inl h
            · simp at h
              exact Or.inr (by simp [h])
          · intro hlt
            rw [List.length_append]
            simp only [List.length_cons, List.length_nil]
            omega
        · next hcap =>
          obtain ⟨hall, hsub, hlen⟩ := (ih (visited ++ [n]) (nf ++ [n])).1 v hv
          refine ⟨?_, fun x hx => hsub x (by simp [hx]), ?_⟩
          · intro x hx
            rcases hall x hx with h | h
            · rcases List.mem_append.mp h with h2 | h2
              · exact Or.inl h2
              · simp at h2
                exact Or.inr (by simp [h2])
            · exact Or.inr (by simp [h])
          · intro _
            refine hlen ?_
            omega
    · intro v nf2 hv
      rw [addNeighbors] at hv
      split at hv
      · next hcont =>
        obtain ⟨hall, hsub, hlen, hnf⟩ := (ih visited nf).2 v nf2 hv
        refine ⟨?_, hsub, hlen, ?_⟩
        · intro x hx
          rcases hall x hx with h | h
          · exact Or.inl h
          · exact Or.inr (by simp [h])
        · intro x hx
          rcases hnf x hx with h | h
          · exact Or.inl h
          · exact Or.inr (by simp [h])
      · dsimp only at hv
        split at hv
        · exact absurd hv (by simp)
        · next hcap =>
          obtain ⟨hall, hsub, hlen, hnf⟩ := (ih (visited ++ [n]) (nf ++ [n])).2 v nf2 hv
          refine ⟨?_, fun x hx => hsub x (by simp [hx]), ?_, ?_⟩
          · intro x hx
            rcases hall x hx with h | h
            · rcases List.mem_append.mp h with h2 | h2
              · exact Or.inl h2
              · simp at h2
                exact Or.inr (by simp [h2])
            · exact Or.inr (by simp [h])
          · intro _
            refine hlen ?_
            omega
          · intro x hx
            rcases hnf x hx with h | h
            · rcases List.mem_append.mp h with h2 | h2
              · exact Or.inl h2
              · simp at h2
                exact Or.inr (by simp [h2])
            · exact Or.inr (by simp [h])

/-- Membership in the neighbourhood of some frontier node. -/
def frontierNbr (adj : List ((String × String) × ℝ)) (frontier : List String)
    (x : String) : Prop :=
  ∃ node ∈ frontier, x ∈ neighborsOf adj node

theorem processFrontier_facts (maxNodes : Nat)
    (adj : List ((String × String) × ℝ)) (frontier : List String) :
    ∀ (visited nf : List String),
      (∀ v, processFrontier maxNodes adj frontier visited nf = Sum.inl v →
        (∀ x ∈ v, x ∈ visited ∨ frontierNbr adj frontier x) ∧
        (∀ x ∈ visited, x ∈ v) ∧
        (visited.length < maxNodes → v.length ≤ maxNodes)) ∧
      (∀ v nf2, processFrontier maxNodes adj frontier visited nf
          = Sum.inr (v, nf2) →
        (∀ x ∈ v, x ∈ visited ∨ frontierNbr adj frontier x) ∧
        (∀ x ∈ visited, x ∈ v) ∧
        (visited.length < maxNodes → v.length < maxNodes) ∧
        (∀ x ∈ nf2, x ∈ nf ∨ frontierNbr adj frontier x)) := by
  induction frontier with
  | nil =>
    intro visited nf
    constructor
    · intro v hv
      rw [processFrontier] at hv
      exact absurd hv (by simp)
    · intro v nf2 hv
      rw [processFrontier] at hv
      injection hv with hv
      injection hv with h1 h2
      subst h1; subst h2
      exact ⟨fun x hx => Or.inl hx, fun x hx => hx, fun h => h,
        fun x hx => Or.inl hx⟩
  | cons node rest ih =>
    intro visited nf
    have hlift : ∀ x, frontierNbr adj rest x → frontierNbr adj (node :: rest) x := by
      rintro x ⟨nd, hnd, hx⟩
      exact ⟨nd, by simp [hnd], hx⟩
    constructor
    · intro v hv
      rw [processFrontier] at hv
      cases hadd : addNeighbors maxNodes (neighborsOf adj node) visited nf with
      | inl v2 =>
        rw [hadd] at hv
        dsimp only at hv
        injection hv with hv
        obtain ⟨hall, hsub, hlen⟩ :=
          (addNeighbors_facts maxNodes (neighborsOf adj node) visited nf).1 v2 hadd
        subst hv
        refine ⟨?_, hsub, hlen⟩
        intro x hx
        rcases hall x hx with h | h
        · exact Or.inl h
        · exact Or.inr ⟨node, by simp, h⟩
      | inr p =>
        obtain ⟨v2, nfb⟩ := p
        rw [hadd] at hv
        dsimp only at hv
        obtain ⟨hall, hsub, hlen, hnf⟩ :=
          (addNeighbors_facts maxNodes (neighborsOf adj node) visited nf).2
            v2 nfb hadd
        obtain ⟨hall2, hsub2, hlen2⟩ := (ih v2 nfb).1 v hv
        refine ⟨?_, fun x hx => hsub2 x (hsub x hx), ?_⟩
        · intro x hx
          rcases hall2 x hx with h | h
          · rcases hall x h with h2 | h2
            · exact Or.inl h2
            · exact Or.inr ⟨node, by simp, h2⟩
          · exact Or.inr (hlift x h)
        · intro hlt
          exact hlen2 (hlen hlt)
    · intro v nf2 hv
      rw [processFrontier] at hv
      cases hadd : addNeighbors maxNodes (neighborsOf adj node) visited nf with
      | inl v2 =>
        rw [hadd] at hv
        dsimp only at hv
        exact absurd hv (by simp)
      | inr p =>
        obtain ⟨v2, nfb⟩ := p
        rw [hadd] at hv
        dsimp only at hv
        obtain ⟨hall, hsub, hlen, hnf⟩ :=
          (addNeighbors_facts maxNodes (neighborsOf adj node) visited nf).2
            v2 nfb hadd
        obtain ⟨hall2, hsub2, hlen2, hnf2⟩ := (ih v2 nfb).2 v nf2 hv
        refine ⟨?_, fun x hx => hsub2 x (hsub x hx), ?_, ?_⟩
        · intro x hx
          rcases hall2 x hx with h | h
          · rcases hall x h with h2 | h2
            · exact Or.inl h2
            · exact Or.inr ⟨node, by simp, h2⟩
          · exact Or.inr (hlift x h)
        · intro hlt
          exact hlen2 (hlen hlt)
        · intro x hx
          rcases hnf2 x hx with h | h
          · rcases hnf x h with h2 | h2
            · exact Or.inl h2
            · exact Or.inr ⟨node, by simp, h2⟩
          · exact Or.inr (hlift x h)

theorem ball_succ_mem {adj : List ((String × String) × ℝ)} {center x : String}
    {k : Nat} (h : x ∈ ball adj center k) : x ∈ ball adj center (k + 1) := by
  rw [ball]
  exact List.mem_append.mpr (Or.inl h)

theorem ball_step {adj : List ((String × String) × ℝ)} {center x nd : String}
    {k : Nat} (hnd : nd ∈ ball adj center k) (hx : x ∈ neighborsOf adj nd) :
    x ∈ ball adj center (k + 1) := by
  rw [ball]
  exact List.mem_append.mpr (Or.inr (List.mem_flatMap.mpr ⟨nd, hnd, hx⟩))

theorem ball_le_mem {adj : List ((String × String) × ℝ)} {center x : String}
    {k k2 : Nat} (h : x ∈ ball adj center k) (hle : k ≤ k2) :
    x ∈ ball adj center k2 := by
  induction k2 with
  | zero =>
    have hk : k = 0 := Nat.le_zero.mp hle
    subst hk
    exact h
  | succ n ih =>
    by_cases hk : k = n + 1
    · subst hk
      exact h
    · exact ball_succ_mem (ih (by omega))

theorem bfsLoop_facts (maxNodes : Nat) (adj : List ((String × String) × ℝ))
    (center : String) :
    ∀ (hops : Nat) (visited frontier : List String) (k : Nat),
      visited.length < maxNodes →
      (∀ x ∈ visited, x ∈ ball adj center k) →
      (∀ x ∈ frontier, x ∈ ball adj center k) →
      center ∈ visited →
      (∀ x ∈ bfsLoop maxNodes adj hops visited frontier,
        x ∈ ball adj center (k + hops)) ∧
      (bfsLoop maxNodes adj hops visited frontier).length ≤ maxNodes ∧
      center ∈ bfsLoop maxNodes adj hops visited frontier := by
  intro hops
  induction hops with
  | zero =>
    intro visited frontier k hlen hvis hfr hc
    rw [bfsLoop]
    exact ⟨fun x hx => by simpa using hvis x hx, Nat.le_of_lt hlen, hc⟩
  | succ hops ih =>
    intro visited frontier k hlen hvis hfr hc
    rw [bfsLoop]
    have hstep : ∀ x, frontierNbr adj frontier x → x ∈ ball adj center (k + 1) := by
      rintro x ⟨nd, hnd, hx⟩
      exact ball_step (hfr nd hnd) hx
    cases hpf : processFrontier maxNodes adj frontier visited [] with
    | inl v =>
      dsimp only
      obtain ⟨hall, hsub, hl⟩ :=
        (processFrontier_facts maxNodes adj frontier visited []).1 v hpf
      refine ⟨?_, hl hlen, hsub center hc⟩
      intro x hx
      rcases hall x hx with h | h
      · have hmono : x ∈ ball adj center (k + 1) := ball_succ_mem (hvis x h)
        have hle2 : k + 1 ≤ k + (hops + 1) := by omega
        exact ball_le_mem hmono hle2
      · have hmem := hstep x h
        have hle2 : k + 1 ≤ k + (hops + 1) := by omega
        exact ball_le_mem hmem hle2
    | inr p =>
      obtain ⟨v2, nfb⟩ := p
      dsimp only
      obtain ⟨hall, hsub, hl, hnf⟩ :=
        (processFrontier_facts maxNodes adj frontier visited []).2 v2 nfb hpf
      have hvball : ∀ x ∈ v2, x ∈ ball adj center (k + 1) := by
        intro x hx
        rcases hall x hx with h | h
        · exact ball_succ_mem (hvis x h)
        · exact hstep x h
      have hnfball : ∀ x ∈ nfb, x ∈ ball adj center (k + 1) := by
        intro x hx
        rcases hnf x hx with h | h
        · simp at h
        · exact hstep x h
      split
      · refine ⟨?_, Nat.le_of_lt (hl hlen), hsub center hc⟩
        intro x hx
        have hmem := hvball x hx
        have hle2 : k + 1 ≤ k + (hops + 1) := by omega
        exact ball_le_mem hmem hle2
      · obtain ⟨ha, hb, hcen⟩ := ih v2 nfb (k + 1) (hl hlen) hvball hnfball
          (hsub center hc)
        refine ⟨?_, hb, hcen⟩
        intro x hx
        have hmem := ha x hx
        have heq : k + 1 + hops = k + (hops + 1) := by omega
        rw [heq] at hmem
        exact hmem

/-- C6: the ego-subgraph BFS returns `[]` when the center is not an adjacency
key; otherwise its result is sorted ascending, contains the center, has at
most 128 nodes (the cap at which expansion stops), and only contains nodes
within `hops` breadth-first levels of the center. -/
theorem claim_C6 (adj : List ((String × String) × ℝ)) (center : String)
    (hops : Nat) :
    (center ∉ adjKeys adj → egoNodes adj center hops 128 = []) ∧
    (center ∈ adjKeys adj →
      List.Pairwise (fun a b => strLe a b = true) (egoNodes adj center hops 128) ∧
      center ∈ egoNodes adj center hops 128 ∧
      (egoNodes adj center hops 128).length ≤ 128 ∧
      ∀ x ∈ egoNodes adj center hops 128, x ∈ ball adj center hops) := by
  constructor
  · intro h
    rw [egoNodes, if_neg]
    intro hc
    exact h (contains_iff_mem.mp hc)
  · intro h
    rw [egoNodes, if_pos (contains_iff_mem.mpr h)]
    have hball0 : ∀ x ∈ [center], x ∈ ball adj center 0 := by
      intro x hx
      simp at hx
      simp [hx, ball]
    obtain ⟨hmem, hlen, hcen⟩ := bfsLoop_facts 128 adj center hops
      [center] [center] 0 (by simp) hball0 hball0 (by simp)
    refine ⟨?_, ?_, ?_, ?_⟩
    · rw [sortStrings]
      exact @List.sorted_mergeSort String strLe
        (fun a b c hab hbc => strLe_trans hab hbc) strLe_total _
    · exact List.mem_mergeSort.mpr hcen
    · rw [sortStrings, List.length_mergeSort]
      exact hlen
    · intro x hx
      have hx2 := List.mem_mergeSort.mp hx
      have := hmem x hx2
      simpa using this

/-- The concrete two-node adjacency used to witness C6. -/
noncomputable def adjWitnessC6 : List ((String × String) × ℝ) :=
  [(("alpha", "beta"), 1), (("beta", "alpha"), 1)]

/-- Witness for C6 on the two-node graph `alpha — beta` with center
`"alpha"` and two hops. -/
theorem claim_C6_witness :
    List.Pairwise (fun a b => strLe a b = true)
      (egoNodes adjWitnessC6 "alpha" 2 128) ∧
    "alpha" ∈ egoNodes adjWitnessC6 "alpha" 2 128 ∧
    (egoNodes adjWitnessC6 "alpha" 2 128).length ≤ 128 ∧
    ∀ x ∈ egoNodes adjWitnessC6 "alpha" 2 128, x ∈ ball adjWitnessC6 "alpha" 2 :=
  (claim_C6 adjWitnessC6 "alpha" 2).2 (by simp [adjKeys, adjWitnessC6])

/-! ## Hashed embedder (`_token_hash`, `embed_text`)

`hashlib.blake2b(token, digest_size=8)` interpreted big-endian is an external
primitive; it is modelled by an arbitrary digest function `h : String → Nat`
reduced modulo `2 ^ 64`.  Everything after the digest is translated from the
source. -/

/-- The sign taken from the top bit of the 64-bit digest word:
`-1.0 if ((raw >> 63) & 1) else 1.0`. -/
def tokenSign (raw : Nat) : ℤ := if raw.testBit 63 then -1 else 1

/-- `_token_hash(token, dim)` given the digest function `h`. -/
def tokenHash (h : String → Nat) (dim : Nat) (token : String) : Nat × ℤ :=
  let raw := h token % 2 ^ 64
  (raw % dim, tokenSign raw)

/-- The accumulation loop of `embed_text` (`vec[idx] += sign`), before
normalization; buckets hold exact integers. -/
def rawAccum (h : String → Nat) (dim : Nat) (tokens : List String) :
    Fin dim → ℤ :=
  tokens.foldl
    (fun vec token => fun b =>
      if (b : Nat) = (tokenHash h dim token).1
      then vec b + (tokenHash h dim token).2 else vec b)
    (fun _ => 0)

/-- `embed_text(text, dim)`: accumulate signed buckets over the tokens, then
divide by the L2 norm when it is positive. -/
noncomputable def embedText (h : String → Nat) (dim : Nat) (text : String) :
    Fin dim → ℝ :=
  let vec : Fin dim → ℝ := fun b => ((rawAccum h dim (tokenize text) b : ℤ) : ℝ)
  let norm := Real.sqrt (∑ b, vec b ^ 2)
  if 0 < norm then (fun b => vec b / norm) else vec

/-- The sign mapping exactly as claim C1 words it: top bit 1 ↦ +1.0 and top
bit 0 ↦ −1.0 (a definition following the claim, to compare with `tokenSign`
from the source). -/
def tokenSignClaimed (raw : Nat) : ℤ := if raw.testBit 63 then 1 else -1

/-- Counterexample to C1 as stated: on a digest word with top bit 1 the code
adds −1.0 where the claim requires +1.0. -/
theorem claim_C1_counterexample :
    tokenSignClaimed (2 ^ 63) = 1 ∧ tokenSign (2 ^ 63) = -1 ∧
    ¬ ∀ raw : Nat, tokenSign raw = tokenSignClaimed raw := by
  have hbit : Nat.testBit (2 ^ 63) 63 = true := by decide
  refine ⟨by rw [tokenSignClaimed, if_pos hbit], by rw [tokenSign, if_pos hbit], ?_⟩
  intro hall
  have := hall (2 ^ 63)
  rw [tokenSign, tokenSignClaimed, if_pos hbit, if_pos hbit] at this
  norm_num at this

theorem rawAccum_eq_sum (h : String → Nat) (dim : Nat) :
    ∀ (tokens : List String) (init : Fin dim → ℤ) (b : Fin dim),
      (tokens.foldl
        (fun vec token => fun b2 : Fin dim =>
          if (b2 : Nat) = (tokenHash h dim token).1
          then vec b2 + (tokenHash h dim token).2 else vec b2) init) b =
      init b + (tokens.map fun token =>
        if (b : Nat) = (h token % 2 ^ 64) % dim
        then tokenSign (h token % 2 ^ 64) else 0).sum := by
  intro tokens
  induction tokens with
  | nil => intro init b; simp
  | cons t ts ih =>
    intro init b
    rw [List.foldl_cons, ih, List.map_cons, List.sum_cons]
    have hsign : (tokenHash h dim t).2 = tokenSign (h t % 2 ^ 64) := rfl
    by_cases hb : (b : Nat) = (tokenHash h dim t).1
    · have hb2 : (b : Nat) = h t % 2 ^ 64 % dim := hb
      rw [if_pos hb, if_pos hb2, hsign]
      ring
    · have hb2 : ¬ (b : Nat) = h t % 2 ^ 64 % dim := hb
      rw [if_neg hb, if_neg hb2]
      ring

/-- C1 amended: for every token the code adds into bucket
`raw mod dim` the sign of the top digest bit with bit 1 mapping to −1.0 and
bit 0 mapping to +1.0 (the opposite of the claim's stated polarity);
afterwards the vector is divided by its L2 norm when that norm is positive
and is the zero vector otherwise. -/
theorem claim_C1 (h : String → Nat) (dim : Nat) (text : String) :
    (∀ raw : Nat, tokenSign raw = if raw.testBit 63 then (-1 : ℤ) else 1) ∧
    (∀ b : Fin dim,
      rawAccum h dim (tokenize text) b =
        ((tokenize text).map fun token =>
          if (b : Nat) = (h token % 2 ^ 64) % dim
          then tokenSign (h token % 2 ^ 64) else 0).sum) ∧
    (0 < Real.sqrt (∑ b, ((rawAccum h dim (tokenize text) b : ℤ) : ℝ) ^ 2) →
      embedText h dim text = fun b =>
        ((rawAccum h dim (tokenize text) b : ℤ) : ℝ) /
          Real.sqrt (∑ b2, ((rawAccum h dim (tokenize text) b2 : ℤ) : ℝ) ^ 2)) ∧
    (¬ 0 < Real.sqrt (∑ b, ((rawAccum h dim (tokenize text) b : ℤ) : ℝ) ^ 2) →
      embedText h dim text = fun _ => 0) := by
  refine ⟨fun raw => rfl, ?_, ?_, ?_⟩
  · intro b
    rw [rawAccum, rawAccum_eq_sum]
    simp
  · intro hpos
    rw [embedText]
    dsimp only
    rw [if_pos hpos]
  · intro hneg
    rw [embedText]
    dsimp only
    rw [if_neg hneg]
    funext b
    have hsq : ∑ b2, ((rawAccum h dim (tokenize text) b2 : ℤ) : ℝ) ^ 2 = 0 := by
      by_contra hne
      have hnn : 0 ≤ ∑ b2, ((rawAccum h dim (tokenize text) b2 : ℤ) : ℝ) ^ 2 :=
        Finset.sum_nonneg fun i _ => sq_nonneg _
      have hlt : 0 < ∑ b2, ((rawAccum h dim (tokenize text) b2 : ℤ) : ℝ) ^ 2 :=
        lt_of_le_of_ne hnn (Ne.symm hne)
      exact hneg (Real.sqrt_pos.mpr hlt)
    have hzero : ∀ b2 : Fin dim,
        ((rawAccum h dim (tokenize text) b2 : ℤ) : ℝ) ^ 2 = 0 := by
      have := (Finset.sum_eq_zero_iff_of_nonneg
        (fun i _ => sq_nonneg ((rawAccum h dim (tokenize text) i : ℤ) : ℝ))).mp hsq
      intro b2
      exact this b2 (Finset.mem_univ b2)
    have := pow_eq_zero_iff (n := 2) (by norm_num) |>.mp (hzero b)
    exact this

/-- Witness for C1's amended statement: on the empty input the accumulated
vector is zero, the norm is not positive, and `embed_text` returns the zero
vector. -/
theorem claim_C1_witness :
    (¬ 0 < Real.sqrt
      (∑ b : Fin 4, ((rawAccum (fun _ => 2 ^ 63) 4 (tokenize "") b : ℤ) : ℝ) ^ 2)) ∧
    embedText (fun _ => 2 ^ 63) 4 "" = fun _ => 0 := by
  have htok : tokenize "" = [] := by
    show (lexAll (lowerStr "".data)).map (fun t => String.mk t) = []
    rw [show lowerStr "".data = [] from rfl, lexAll_nil]
    rfl
  have hacc : ∀ b : Fin 4, rawAccum (fun _ => 2 ^ 63) 4 (tokenize "") b = 0 := by
    intro b
    rw [htok]
    rfl
  have hzero : ¬ 0 < Real.sqrt
      (∑ b : Fin 4, ((rawAccum (fun _ => 2 ^ 63) 4 (tokenize "") b : ℤ) : ℝ) ^ 2) := by
    have hs : (∑ b : Fin 4,
        ((rawAccum (fun _ => 2 ^ 63) 4 (tokenize "") b : ℤ) : ℝ) ^ 2) = 0 := by
      refine Finset.sum_eq_zero ?_
      intro b _
      rw [hacc b]
      norm_num
    rw [hs, Real.sqrt_zero]
    exact lt_irrefl 0
  exact ⟨hzero, (claim_C1 (fun _ => 2 ^ 63) 4 "").2.2.2 hzero⟩

/-! ## Covariance spectrum and graph spectral signal -/

noncomputable section

/-- `numpy.linalg.eigvalsh`: the ascending list of the real eigenvalues, with
multiplicity, of a symmetric matrix — the sorted real roots of its
characteristic polynomial. -/
def eigvalsh {n : Nat} (M : Matrix (Fin n) (Fin n) ℝ) : List ℝ :=
  Multiset.sort (· ≤ ·) (Matrix.charpoly M).roots

/-- `_covariance_views(contexts)`. -/
def covarianceViews (contexts : List String) : List String :=
  let cleaned := (contexts.filter fun t => !(pyStrip t.data).isEmpty).map
    fun t => String.mk (pyStrip t.data)
  if 2 ≤ cleaned.length then cleaned
  else
    match cleaned with
    | [] => []
    | source :: _ =>
      let sentenceViews := splitSentences source
      if 2 ≤ sentenceViews.length then sentenceViews
      else
        let tokens := tokenize source
        if tokens.length < 2 then cleaned
        else
          let window := min 8 (max 3 (Nat.sqrt tokens.length + 1))
          let stride := max 1 (window / 2)
          let spans := (((List.range ((tokens.length + stride - 1) / stride)).map
            fun k => (tokens.drop (k * stride)).take window).filter
            fun chunk => 2 ≤ chunk.length).map
            fun chunk => String.intercalate " " chunk
          let deduped := spans.foldl
            (fun acc s => if acc.contains s then acc else acc ++ [s]) []
          if 2 ≤ deduped.length then deduped
          else
            let midpoint := max 1 (tokens.length / 2)
            let halves := [String.intercalate " " (tokens.take midpoint),
              String.intercalate " " (tokens.drop midpoint)]
            halves.filter fun segment => !segment.isEmpty

/-- `context_covariance_largest_eigenvalue(contexts, dim)` given the digest
function `h`. -/
def contextCovarianceLargestEigenvalue (h : String → Nat)
    (contexts : List String) (dim : Nat) : ℝ :=
  let views := covarianceViews contexts
  if views.length < 2 then 0
  else
    let rows := views.map fun text => embedText h dim text
    let m := views.length
    let mean : Fin dim → ℝ := fun j => (rows.map fun r => r j).sum / (m : ℝ)
    let centered := rows.map fun r => fun j => r j - mean j
    let covariance : Matrix (Fin dim) (Fin dim) ℝ := fun i j =>
      (centered.map fun r => r i * r j).sum / ((m : ℝ) - 1)
    let shrinkage := min 0.35 (4 / ((m : ℝ) + 3))
    let shrunk : Matrix (Fin dim) (Fin dim) ℝ := fun i j =>
      ((1 - shrinkage) * covariance i j) +
        (shrinkage * (if i = j then covariance i j else 0))
    max 0 ((eigvalsh shrunk).getLast?.getD 0)

/-- Weight lookup in the oriented adjacency entry list (dict-of-dicts
access `graph[a][b]`, defaulting to no edge). -/
def lookupWeight (adj : List ((String × String) × ℝ)) (a b : String) : ℝ :=
  ((adj.find? fun e => e.1 = (a, b)).map fun e => e.2).getD 0

/-- The `k×k` weighted adjacency restricted to `nodes`. -/
def egoMatrix (adj : List ((String × String) × ℝ)) (nodes : List String) :
    Matrix (Fin nodes.length) (Fin nodes.length) ℝ :=
  fun i j => lookupWeight adj (nodes.get i) (nodes.get j)

/-- `_non_trivial_normalized_spectral_signal(nodes, graph)`. -/
def nonTrivialNormalizedSpectralSignal (nodes : List String)
    (adj : List ((String × String) × ℝ)) : ℝ :=
  let adjacency := egoMatrix adj nodes
  let symmetric : Matrix (Fin nodes.length) (Fin nodes.length) ℝ :=
    fun i j => (adjacency i j + adjacency j i) / 2
  let degrees : Fin nodes.length → ℝ := fun i => ∑ j, symmetric i j
  if ∀ i, degrees i ≤ 0 then 0
  else
    let invSqrt : Fin nodes.length → ℝ :=
      fun i => if 0 < degrees i then 1 / Real.sqrt (degrees i) else 0
    let normalized : Matrix (Fin nodes.length) (Fin nodes.length) ℝ :=
      fun i j => symmetric i j * invSqrt i * invSqrt j
    let eigvals := eigvalsh normalized
    if eigvals.length ≤ 1 then 0
    else
      let nonTrivial := (eigvals.dropLast.map fun x => |x|).foldr max 0
      let coverage := 1 - Real.exp (-(((nodes.length : ℝ) - 1) / 3))
      max 0 (nonTrivial * coverage)

/-- `_idf_weight(token, token_document_frequency, context_count)`. -/
def idfWeight (token : String) (tokenDocFrequency : List (String × Nat))
    (contextCount : Nat) : ℝ :=
  if contextCount ≤ 0 then 1
  else 1 + Real.log (((contextCount : ℝ) + 1)
    / ((lookupTokenNat tokenDocFrequency token : ℝ) + 1))

/-- `term_graph_spectral_radius(term, graph, hops)`. -/
def termGraphSpectralRadius (term : String) (g : CooccurrenceGraph)
    (hops : Nat) : ℝ :=
  let targets := tokenize (normalizeTerm term)
  if targets.isEmpty then 0
  else
    let acc := targets.foldl
      (fun wr target =>
        let nodes := egoNodes g.adjacency target hops 128
        if nodes.length < 2 then wr
        else
          let signal := nonTrivialNormalizedSpectralSignal nodes g.adjacency
          if signal ≤ 0 then wr
          else
            let w := idfWeight target g.tokenDocFrequency g.contextCount
            (wr.1 + signal * w, wr.2 + w))
      ((0 : ℝ), (0 : ℝ))
    if acc.2 = 0 then 0 else acc.1 / acc.2

end

/-! ## Score service (`app/services/scoring.py`) -/

/-- `ContextLabel`. -/
structure ContextLabel where
  targetedness : ℝ
  severity : ℝ
  reclaimed : Bool
  isQuoted : Bool
  confidence : ℝ
  rationaleCode : String

/-- A labeler capability: `label_batch(term, contexts, locale)`. -/
def Labeler : Type := String → List String → String → List ContextLabel

/-- `TermScoreResponse`. -/
structure TermScoreResponse where
  term : String
  locale : String
  sampleSize : Nat
  eigenCtx : ℝ
  eigenGraph : ℝ
  severityMean : ℝ
  targetednessMean : ℝ
  reclaimedRate : ℝ
  trendVelocity : ℝ
  score : ℝ
  confidence : ℝ
  band : Band
  modelVersion : String
  warnings : List String

/-- The exact term-absent warning string. -/
def termAbsentWarning : String :=
  "The scored term was not found in any provided context. Add contexts that include the exact term for reliable scoring."

/-- The exact no-graph-signal warning string. -/
def noGraphSignalWarning : String :=
  "No graph signal was found for this term in the provided contexts. Add more varied contexts where the term co-occurs with descriptive language."

noncomputable section

/-- `ScoreService.score_term` with the feature quantiles already fetched from
storage: the pure pipeline from target normalization to the response. -/
def scoreTermCore (h : String → Nat) (embeddingDim : Nat) (labeler : Labeler)
    (engine : FusionEngine) (featureQuantiles : Option QMap)
    (term : String) (contexts : List String) (locale : String)
    (trendVelocity : ℝ) : TermScoreResponse :=
  let target := normalizeTerm term
  let targetTokens := tokenize target
  let termFoundInContext := contexts.any fun context =>
    tokenSequenceContains (tokenize context) targetTokens
  let warnings0 : List String :=
    if termFoundInContext then [] else [termAbsentWarning]
  let labels := labeler target contexts locale
  let sampleSize := contexts.length
  let severityMean :=
    (labels.map fun label => label.severity).sum / (sampleSize : ℝ)
  let targetednessMean :=
    (labels.map fun label => label.targetedness).sum / (sampleSize : ℝ)
  let reclaimedRate :=
    ((labels.filter fun label => label.reclaimed).length : ℝ) / (sampleSize : ℝ)
  let eigenCtx := contextCovarianceLargestEigenvalue h contexts embeddingDim
  let graph := buildGraphCore contexts 6 2 defaultStopwords
  let eigenGraph := termGraphSpectralRadius target graph 2
  let warnings := warnings0 ++
    (if termFoundInContext = true ∧ eigenGraph ≤ 0
     then [noGraphSignalWarning] else [])
  let tuned := tunedBandThresholds engine.reviewThreshold
    engine.blockThreshold featureQuantiles 80
  let fusion := engine.fuse
    ⟨eigenGraph, eigenCtx, severityMean, targetednessMean, reclaimedRate,
      trendVelocity, sampleSize⟩ featureQuantiles
  let band := scoreBand fusion.score tuned.1 tuned.2
  ⟨target, locale, sampleSize, eigenCtx, eigenGraph, severityMean,
    targetednessMean, reclaimedRate, trendVelocity, fusion.score,
    fusion.confidence, band, fusion.modelVersion, warnings⟩

/-- A feedback payload (`FeedbackRequest`). -/
structure FeedbackRequest where
  term : String
  locale : String
  feedbackType : String
  proposedBand : Option String
  proposedScore : Option ℝ
  notes : String

/-- `FeedbackResponse`. -/
structure FeedbackResponse where
  status : String
  feedbackId : Nat

/-- The SQLite storage backend, modelled as explicit state.  The SQL queries
and the `numpy.quantile` computation of `get_feature_quantiles` are external
I/O; they are abstracted by the fields `featureQuantilesOf` (the snapshot the
quantile query would derive from the saved rows) and `termHistory` (the rows
the history query would return). -/
structure StoreState where
  termScores : List TermScoreResponse
  feedbackRows : List FeedbackRequest
  featureQuantilesOf : List TermScoreResponse → Option QMap
  termHistory : String → Nat → List TermScoreResponse

/-- `get_feature_quantiles` through the `storage is not None` check. -/
def getFeatureQuantiles (storage : Option StoreState) : Option QMap :=
  match storage with
  | none => none
  | some st => st.featureQuantilesOf st.termScores

/-- `ScoreService.score_term(term, contexts, locale, trend_velocity,
persist)`: fetch quantiles when storage is present, run the pure pipeline,
and persist the response when requested and storage is present. -/
def scoreTermRun (h : String → Nat) (embeddingDim : Nat) (labeler : Labeler)
    (engine : FusionEngine) (storage : Option StoreState)
    (term : String) (contexts : List String) (locale : String)
    (trendVelocity : ℝ) (persist : Bool) :
    TermScoreResponse × Option StoreState :=
  let featureQuantiles := getFeatureQuantiles storage
  let response := scoreTermCore h embeddingDim labeler engine featureQuantiles
    term contexts locale trendVelocity
  match storage, persist with
  | some st, true =>
    (response, some { st with termScores := st.termScores ++ [response] })
  | some st, false => (response, some st)
  | none, _ => (response, none)

/-- `TermHistoryResponse`. -/
structure TermHistoryResponse where
  term : String
  count : Nat
  history : List TermScoreResponse

/-- `ScoreService.get_term_history(term, limit)`. -/
def getTermHistory (storage : Option StoreState) (term : String)
    (limit : Nat) : TermHistoryResponse :=
  let normalized := normalizeTerm term
  match storage with
  | none => ⟨normalized, 0, []⟩
  | some st =>
    let history := st.termHistory normalized limit
    ⟨normalized, history.length, history⟩

/-- The error `submit_feedback` raises without storage (`RuntimeError`,
surfaced by `app/main.py` as HTTP 503 Service Unavailable). -/
inductive ServiceError
  | serviceUnavailable (message : String)

/-- `ScoreService.submit_feedback(payload)`: fail when storage is disabled,
otherwise write the row and return the accepted response with the assigned
autoincrement id (row number). -/
def submitFeedback (storage : Option StoreState) (payload : FeedbackRequest) :
    Except ServiceError (FeedbackResponse × StoreState) :=
  match storage with
  | none => Except.error (ServiceError.serviceUnavailable
      "Persistence is disabled; feedback cannot be recorded.")
  | some st =>
    let feedbackId := st.feedbackRows.length + 1
    Except.ok (⟨"accepted", feedbackId⟩,
      { st with feedbackRows := st.feedbackRows ++ [payload] })

end

/-! ### Claims C3, C7, C8, C9 -/

theorem scoreBand_iff (s rt bt : ℝ) :
    (scoreBand s rt bt = Band.block ↔ bt ≤ s) ∧
    (scoreBand s rt bt = Band.review ↔ s < bt ∧ rt ≤ s) ∧
    (scoreBand s rt bt = Band.monitor ↔ s < bt ∧ s < rt) := by
  rw [scoreBand]
  by_cases h1 : bt ≤ s
  · rw [if_pos h1]
    refine ⟨⟨fun _ => h1, fun _ => rfl⟩, ?_, ?_⟩
    · constructor
      · intro hcontra; exact absurd hcontra (by decide)
      · rintro ⟨hlt, _⟩; exact absurd hlt (not_lt.mpr h1)
    · constructor
      · intro hcontra; exact absurd hcontra (by decide)
      · rintro ⟨hlt, _⟩; exact absurd hlt (not_lt.mpr h1)
  · rw [if_neg h1]
    have h1lt : s < bt := not_le.mp h1
    by_cases h2 : rt ≤ s
    · rw [if_pos h2]
      refine ⟨?_, ⟨fun _ => ⟨h1lt, h2⟩, fun _ => rfl⟩, ?_⟩
      · constructor
        · intro hcontra; exact absurd hcontra (by decide)
        · intro hle; exact absurd hle h1
      · constructor
        · intro hcontra; exact absurd hcontra (by decide)
        · rintro ⟨_, hlt⟩; exact absurd hlt (not_lt.mpr h2)
    · rw [if_neg h2]
      refine ⟨?_, ?_, ⟨fun _ => ⟨h1lt, not_le.mp h2⟩, fun _ => rfl⟩⟩
      · constructor
        · intro hcontra; exact absurd hcontra (by decide)
        · intro hle; exact absurd hle h1
      · constructor
        · intro hcontra; exact absurd hcontra (by decide)
        · rintro ⟨_, hle⟩; exact absurd hle h2

/-- C3: `score_term` reports the band obtained by applying the tuned
thresholds to the fusion score (block iff `score ≥` tuned block, else review
iff `score ≥` tuned review, else monitor), regardless of the band field the
fusion engine itself reported. -/
theorem claim_C3 (h : String → Nat) (embeddingDim : Nat) (labeler : Labeler)
    (engine : FusionEngine) (q : Option QMap) (term : String)
    (contexts : List String) (locale : String) (tv : ℝ) :
    (scoreTermCore h embeddingDim labeler engine q term contexts locale tv).score
      = (engine.fuse
          ⟨(scoreTermCore h embeddingDim labeler engine q term contexts locale tv).eigenGraph,
            (scoreTermCore h embeddingDim labeler engine q term contexts locale tv).eigenCtx,
            (scoreTermCore h embeddingDim labeler engine q term contexts locale tv).severityMean,
            (scoreTermCore h embeddingDim labeler engine q term contexts locale tv).targetednessMean,
            (scoreTermCore h embeddingDim labeler engine q term contexts locale tv).reclaimedRate,
            (scoreTermCore h embeddingDim labeler engine q term contexts locale tv).trendVelocity,
            (scoreTermCore h embeddingDim labeler engine q term contexts locale tv).sampleSize⟩
          q).score ∧
    (scoreTermCore h embeddingDim labeler engine q term contexts locale tv).band
      = scoreBand
          (scoreTermCore h embeddingDim labeler engine q term contexts locale tv).score
          (tunedBandThresholds engine.reviewThreshold engine.blockThreshold q 80).1
          (tunedBandThresholds engine.reviewThreshold engine.blockThreshold q 80).2 ∧
    ((scoreTermCore h embeddingDim labeler engine q term contexts locale tv).band
        = Band.block ↔
      (tunedBandThresholds engine.reviewThreshold engine.blockThreshold q 80).2 ≤
        (scoreTermCore h embeddingDim labeler engine q term contexts locale tv).score) ∧
    ((scoreTermCore h embeddingDim labeler engine q term contexts locale tv).band
        = Band.review ↔
      (scoreTermCore h embeddingDim labeler engine q term contexts locale tv).score <
        (tunedBandThresholds engine.reviewThreshold engine.blockThreshold q 80).2 ∧
      (tunedBandThresholds engine.reviewThreshold engine.blockThreshold q 80).1 ≤
        (scoreTermCore h embeddingDim labeler engine q term contexts locale tv).score) ∧
    ((scoreTermCore h embeddingDim labeler engine q term contexts locale tv).band
        = Band.monitor ↔
      (scoreTermCore h embeddingDim labeler engine q term contexts locale tv).score <
        (tunedBandThresholds engine.reviewThreshold engine.blockThreshold q 80).2 ∧
      (scoreTermCore h embeddingDim labeler engine q term contexts locale tv).score <
        (tunedBandThresholds engine.reviewThreshold engine.blockThreshold q 80).1) := by
  have hscore : (scoreTermCore h embeddingDim labeler engine q term contexts
      locale tv).score = (engine.fuse
        ⟨(scoreTermCore h embeddingDim labeler engine q term contexts locale tv).eigenGraph,
          (scoreTermCore h embeddingDim labeler engine q term contexts locale tv).eigenCtx,
          (scoreTermCore h embeddingDim labeler engine q term contexts locale tv).severityMean,
          (scoreTermCore h embeddingDim labeler engine q term contexts locale tv).targetednessMean,
          (scoreTermCore h embeddingDim labeler engine q term contexts locale tv).reclaimedRate,
          (scoreTermCore h embeddingDim labeler engine q term contexts locale tv).trendVelocity,
          (scoreTermCore h embeddingDim labeler engine q term contexts locale tv).sampleSize⟩
        q).score := rfl
  have hband : (scoreTermCore h embeddingDim labeler engine q term contexts
      locale tv).band = scoreBand
        (scoreTermCore h embeddingDim labeler engine q term contexts locale tv).score
        (tunedBandThresholds engine.reviewThreshold engine.blockThreshold q 80).1
        (tunedBandThresholds engine.reviewThreshold engine.blockThreshold q 80).2 := rfl
  obtain ⟨hb, hr, hm⟩ := scoreBand_iff
    (scoreTermCore h embeddingDim labeler engine q term contexts locale tv).score
    (tunedBandThresholds engine.reviewThreshold engine.blockThreshold q 80).1
    (tunedBandThresholds engine.reviewThreshold engine.blockThreshold q 80).2
  exact ⟨hscore, hband, hband ▸ hb, hband ▸ hr, hband ▸ hm⟩

/-- C7: the term-absent warning is in the returned warnings iff no context
contains the normalized term's token sequence, and the no-graph-signal
warning is in the returned warnings iff the term was found and the graph
spectral radius is ≤ 0. -/
theorem claim_C7 (h : String → Nat) (embeddingDim : Nat) (labeler : Labeler)
    (engine : FusionEngine) (q : Option QMap) (term : String)
    (contexts : List String) (locale : String) (tv : ℝ) :
    (termAbsentWarning ∈
        (scoreTermCore h embeddingDim labeler engine q term contexts locale tv).warnings
      ↔ (contexts.any fun context =>
          tokenSequenceContains (tokenize context)
            (tokenize (normalizeTerm term))) = false) ∧
    (noGraphSignalWarning ∈
        (scoreTermCore h embeddingDim labeler engine q term contexts locale tv).warnings
      ↔ ((contexts.any fun context =>
            tokenSequenceContains (tokenize context)
              (tokenize (normalizeTerm term))) = true ∧
          termGraphSpectralRadius (normalizeTerm term)
            (buildGraphCore contexts 6 2 defaultStopwords) 2 ≤ 0)) := by
  have hAB : termAbsentWarning ≠ noGraphSignalWarning := by decide
  have hwarn : (scoreTermCore h embeddingDim labeler engine q term contexts
      locale tv).warnings =
      (if (contexts.any fun context =>
          tokenSequenceContains (tokenize context)
            (tokenize (normalizeTerm term))) = true
        then [] else [termAbsentWarning]) ++
      (if (contexts.any fun context =>
          tokenSequenceContains (tokenize context)
            (tokenize (normalizeTerm term))) = true ∧
          termGraphSpectralRadius (normalizeTerm term)
            (buildGraphCore contexts 6 2 defaultStopwords) 2 ≤ 0
        then [noGraphSignalWarning] else []) := rfl
  rw [hwarn]
  set found := contexts.any fun context =>
    tokenSequenceContains (tokenize context) (tokenize (normalizeTerm term))
  set eg := termGraphSpectralRadius (normalizeTerm term)
    (buildGraphCore contexts 6 2 defaultStopwords) 2
  by_cases hf : found = true
  · by_cases hg : eg ≤ 0
    · rw [if_pos hf, if_pos ⟨hf, hg⟩]
      constructor
      · simp [hAB, hf]
      · simp [hf, hg]
    · rw [if_pos hf, if_neg (by rintro ⟨_, hcg⟩; exact hg hcg)]
      constructor
      · simp [hf]
      · simp [hg]
  · have hff : found = false := by
      rw [← Bool.not_eq_true]
      exact hf
    rw [if_neg hf, if_neg (by rintro ⟨hcf, _⟩; exact hf hcf)]
    constructor
    · simp [hff]
    · simp only [List.append_nil, List.mem_singleton]
      constructor
      · intro hcontra
        exact absurd hcontra.symm hAB
      · rintro ⟨hcf, _⟩
        exact absurd hcf hf

/-- C8: with storage absent `get_term_history` returns an empty history
(count 0) rather than an error, the score service fetches and uses no
feature quantiles, and `submit_feedback` fails with ServiceUnavailable
without writing anything; with storage present `submit_feedback` returns an
accepted response carrying the assigned integer id. -/
theorem claim_C8 (term : String) (limit : Nat) (payload : FeedbackRequest)
    (h : String → Nat) (embeddingDim : Nat) (labeler : Labeler)
    (engine : FusionEngine) (contexts : List String) (locale : String)
    (tv : ℝ) (persist : Bool) (st : StoreState) :
    getTermHistory none term limit = ⟨normalizeTerm term, 0, []⟩ ∧
    getFeatureQuantiles none = none ∧
    scoreTermRun h embeddingDim labeler engine none term contexts locale tv
        persist =
      (scoreTermCore h embeddingDim labeler engine none term contexts locale
        tv, none) ∧
    submitFeedback none payload = Except.error
      (ServiceError.serviceUnavailable
        "Persistence is disabled; feedback cannot be recorded.") ∧
    submitFeedback (some st) payload =
      Except.ok (⟨"accepted", st.feedbackRows.length + 1⟩,
        { st with feedbackRows := st.feedbackRows ++ [payload] }) := by
  refine ⟨rfl, rfl, ?_, rfl, rfl⟩
  cases persist <;> rfl

/-- C9: running `score_term` twice on the same term, contexts, locale and
trend velocity with storage disabled leaves the (absent) storage unchanged
and returns identical responses. -/
theorem claim_C9 (h : String → Nat) (embeddingDim : Nat) (labeler : Labeler)
    (engine : FusionEngine) (term : String) (contexts : List String)
    (locale : String) (tv : ℝ) (persist : Bool) :
    (scoreTermRun h embeddingDim labeler engine none term contexts locale tv
      persist).2 = none ∧
    (scoreTermRun h embeddingDim labeler engine
      (scoreTermRun h embeddingDim labeler engine none term contexts locale tv
        persist).2
      term contexts locale tv persist).1
    = (scoreTermRun h embeddingDim labeler engine none term contexts locale tv
      persist).1 := by
  cases persist <;> exact ⟨rfl, rfl⟩

/-! ## Claim C2 -/

open Polynomial

/-! ### Claim C2: fusion-layer facts -/

theorem tanh_nonneg_of {x : ℝ} (hx : 0 ≤ x) : 0 ≤ Real.tanh x := by
  rw [Real.tanh_eq_sinh_div_cosh]
  have h1 : 0 ≤ Real.sinh x := by
    rw [Real.sinh_eq]
    have h : Real.exp (-x) ≤ Real.exp x := Real.exp_le_exp.mpr (by linarith)
    linarith
  have h2 : 0 < Real.cosh x := Real.cosh_pos x
  positivity

theorem compress_nonneg (v : ℝ) : 0 ≤ compressNonnegative v := by
  rw [compressNonnegative]
  apply tanh_nonneg_of
  apply Real.log_nonneg
  have := le_max_left (0:ℝ) v
  linarith

theorem compress_nonpos {v : ℝ} (hv : v ≤ 0) : compressNonnegative v = 0 := by
  rw [compressNonnegative, max_eq_left hv, add_zero, Real.log_one, Real.tanh_zero]

theorem sigmoid_pos (x : ℝ) : 0 < sigmoid x := by
  rw [sigmoid]
  positivity

theorem sigmoid_lt_one (x : ℝ) : sigmoid x < 1 := by
  rw [sigmoid, div_lt_one (by positivity)]
  have := Real.exp_pos (-x)
  linarith

theorem clamp_sigmoid (x : ℝ) : clamp (sigmoid x) 0 1 = sigmoid x := by
  rw [clamp, min_eq_right (le_of_lt (sigmoid_lt_one x)),
    max_eq_right (le_of_lt (sigmoid_pos x))]

theorem exp_le_inv_one_sub {x : ℝ} (hx : x < 1) : Real.exp x ≤ (1 - x)⁻¹ := by
  have h1 : 1 - x ≤ Real.exp (-x) := by
    have := Real.add_one_le_exp (-x)
    linarith
  have h2 : 0 < 1 - x := by linarith
  have h3 : Real.exp x = (Real.exp (-x))⁻¹ := by
    rw [Real.exp_neg, inv_inv]
  rw [h3]
  exact inv_anti₀ h2 h1

theorem key_exp_bound : Real.exp ((36973 : ℝ)/62450) ≤ 13/7 := by
  have h16 : ((36973 : ℝ)/62450) = ((16 : ℕ) : ℝ) * (36973/999200) := by norm_num
  rw [h16, Real.exp_nat_mul]
  have hb : Real.exp ((36973 : ℝ)/999200) ≤ ((999200 : ℝ)/962227) := by
    have h := exp_le_inv_one_sub (x := (36973 : ℝ)/999200) (by norm_num)
    have heq : ((1 : ℝ) - 36973/999200)⁻¹ = 999200/962227 := by norm_num
    rw [heq] at h
    exact h
  calc Real.exp ((36973 : ℝ)/999200) ^ 16
      ≤ ((999200 : ℝ)/962227) ^ 16 :=
        pow_le_pow_left₀ (le_of_lt (Real.exp_pos _)) hb 16
    _ ≤ 13/7 := by norm_num

theorem exp_third_ge : (49/36 : ℝ) ≤ Real.exp (1/3) := by
  by_contra hcon
  push_neg at hcon
  have hp : Real.exp ((1:ℝ)/3) ^ 3 < ((49:ℝ)/36) ^ 3 :=
    pow_lt_pow_left₀ hcon (le_of_lt (Real.exp_pos _)) (by norm_num)
  have hexp3 : Real.exp ((1:ℝ)/3) ^ 3 = Real.exp 1 := by
    rw [← Real.exp_nat_mul]
    norm_num
  rw [hexp3] at hp
  have hd9 := Real.exp_one_gt_d9
  norm_num at hp
  linarith

theorem tanh_log_eq {u : ℝ} (hu : 0 < u) :
    Real.tanh (Real.log u) = (u^2 - 1)/(u^2 + 1) := by
  rw [Real.tanh_eq_sinh_div_cosh, Real.sinh_log hu, Real.cosh_log hu]
  have hne : u ≠ 0 := ne_of_gt hu
  have hden : u + u⁻¹ ≠ 0 := by positivity
  field_simp
  ring

theorem exp_neg_third_le : Real.exp (-(1/3 : ℝ)) ≤ 36/49 := by
  rw [Real.exp_neg]
  calc (Real.exp ((1:ℝ)/3))⁻¹ ≤ ((49:ℝ)/36)⁻¹ := inv_anti₀ (by norm_num) exp_third_ge
    _ = 36/49 := by norm_num

theorem compress_lb :
    (1443/6245 : ℝ) ≤ compressNonnegative (1 - Real.exp (-(1/3 : ℝ))) := by
  have he := exp_neg_third_le
  have hpos : (0:ℝ) ≤ 1 - Real.exp (-(1/3 : ℝ)) := by linarith
  rw [compressNonnegative, max_eq_right hpos]
  have hu49 : (62/49 : ℝ) ≤ 1 + (1 - Real.exp (-(1/3 : ℝ))) := by linarith
  have hupos : (0:ℝ) < 1 + (1 - Real.exp (-(1/3 : ℝ))) := by linarith
  rw [tanh_log_eq hupos]
  rw [div_le_div_iff₀ (by norm_num) (by positivity)]
  nlinarith [hu49, sq_nonneg (1 + (1 - Real.exp (-(1/3 : ℝ))) - 62/49)]

theorem sigmoid_ge {x y : ℝ} (hxy : y ≤ x) (hb : Real.exp (-y) ≤ 13/7) :
    (7/20 : ℝ) ≤ sigmoid x := by
  have h1 : Real.exp (-x) ≤ 13/7 :=
    le_trans (Real.exp_le_exp.mpr (by linarith)) hb
  have h2 : (0:ℝ) < 1 + Real.exp (-x) := by positivity
  rw [sigmoid, le_div_iff₀ h2]
  linarith

theorem defaultFuse_score (fv : FeatureVector) :
    (defaultEngine.fuse fv none).score =
      sigmoid (-0.8 + 0.9 * compressNonnegative fv.lambdaGraph
        + 0.7 * compressNonnegative fv.lambdaCtx + 1.1 * fv.severityMean
        + 1.0 * fv.targetednessMean - 0.9 * fv.reclaimedRate
        + 0.4 * fv.trendVelocity) := by
  have h : (defaultEngine.fuse fv none).score =
      clamp (sigmoid (-0.8 + 0.9 * compressNonnegative fv.lambdaGraph
        + 0.7 * compressNonnegative fv.lambdaCtx + 1.1 * fv.severityMean
        + 1.0 * fv.targetednessMean - 0.9 * fv.reclaimedRate
        + 0.4 * fv.trendVelocity)) 0 1 := rfl
  rw [h, clamp_sigmoid]


/-! ### Claim C2: concrete evaluation of the pipeline on small inputs -/

/-- A labeler that returns severity 0, targetedness 0, reclaimed false (and
confidence 0) for every context. -/
noncomputable def zeroLabeler : Labeler := fun _ contexts _ =>
  contexts.map fun _ => ⟨0, 0, false, false, 0, "none"⟩

theorem tokenize_alpha_beta : tokenize "alpha beta" = ["alpha", "beta"] := by
  simp [tokenize, lowerStr, lowerChar, lexAll, lexLinked, isCoreChar, isLinkChar]

theorem tokenize_alpha : tokenize "alpha" = ["alpha"] := by
  simp [tokenize, lowerStr, lowerChar, lexAll, lexLinked, isCoreChar, isLinkChar]

theorem normalizeTerm_alpha : normalizeTerm "alpha" = "alpha" := by
  simp [normalizeTerm, normalizeTermL, pyStrip, lowerStr, lowerChar, lexAll,
    lexLinked, joinSpace, isCoreChar, isLinkChar, isSpaceChar]

theorem filterTokens_alpha_beta :
    filterTokens "alpha beta" defaultStopwords 2 = ["alpha", "beta"] := by
  simp only [filterTokens, tokenize_alpha_beta]
  decide

theorem prox_alpha_beta :
    contextPairProx ["alpha", "beta"] 6 = [(("alpha", "beta"), 1)] := by
  have hlt : strLt "alpha" "beta" = true := by decide
  simp [contextPairProx, List.range_succ, List.range', updatePairMax, orderPair,
    hlt, List.find?]

/-- The counters after processing the single context `"alpha beta"`. -/
def accABv : CoocAccum :=
  ⟨[(("alpha", "beta"), 1)], [(("alpha", "beta"), 1)],
    [("alpha", 1), ("beta", 1)], 1⟩

theorem acc_alpha_beta :
    ["alpha beta"].foldl (processContext 6 2 defaultStopwords) ⟨[], [], [], 0⟩ =
      accABv := by
  simp only [List.foldl_cons, List.foldl_nil, processContext,
    filterTokens_alpha_beta, prox_alpha_beta]
  simp [accABv, bumpPairCount, addPairProx, distinctTokens, bumpTokenCount,
    List.find?]

theorem ppmi_alpha_beta : pairPpmi accABv (("alpha", "beta"), 1) = 1 := by
  simp [pairPpmi, accABv, lookupTokenNat, lookupPairRat, List.find?]

/-- The adjacency built from the single context `"alpha beta"`. -/
noncomputable def adjABv : List ((String × String) × ℝ) :=
  [(("alpha", "beta"), 1), (("beta", "alpha"), 1)]

/-- The co-occurrence graph built from the single context `"alpha beta"`. -/
noncomputable def graphABv : CooccurrenceGraph :=
  ⟨adjABv, [("alpha", 1), ("beta", 1)], 1⟩

theorem buildGraph_alpha_beta :
    buildGraphCore ["alpha beta"] 6 2 defaultStopwords = graphABv := by
  rw [buildGraphCore, acc_alpha_beta]
  rw [if_neg (by simp [accABv])]
  have hdf : accABv.pairDocFreq = [(("alpha", "beta"), 1)] := rfl
  rw [hdf, List.foldl_cons, List.foldl_nil, adjStep]
  rw [if_neg (by simp [accABv, lookupTokenNat, List.find?])]
  rw [if_neg (by rw [ppmi_alpha_beta]; norm_num)]
  rw [ppmi_alpha_beta]
  rfl

theorem neighbors_alpha : neighborsOf adjABv "alpha" = ["beta"] := by
  rw [adjABv]; decide

theorem neighbors_beta : neighborsOf adjABv "beta" = ["alpha"] := by
  rw [adjABv]; decide

theorem frontier_one : processFrontier 128 adjABv ["alpha"] ["alpha"] [] =
    Sum.inr (["alpha", "beta"], ["beta"]) := by
  rw [processFrontier, neighbors_alpha]
  rw [addNeighbors]
  simp [addNeighbors, processFrontier]

theorem frontier_two : processFrontier 128 adjABv ["beta"] ["alpha", "beta"] [] =
    Sum.inr (["alpha", "beta"], []) := by
  rw [processFrontier, neighbors_beta]
  rw [addNeighbors]
  simp [addNeighbors, processFrontier]

theorem bfs_alpha_beta :
    bfsLoop 128 adjABv 2 ["alpha"] ["alpha"] = ["alpha", "beta"] := by
  rw [bfsLoop, frontier_one]
  dsimp only
  rw [if_neg (by decide), bfsLoop, frontier_two]
  dsimp only
  rw [if_pos (by decide)]

theorem ego_alpha_beta : egoNodes adjABv "alpha" 2 128 = ["alpha", "beta"] := by
  rw [egoNodes, if_pos (by rw [adjABv]; decide), bfs_alpha_beta, sortStrings]
  exact List.mergeSort_of_sorted (by decide)

theorem charpoly_M2 : Matrix.charpoly (!![(0:ℝ), 1; 1, 0]) = X ^ 2 - 1 := by
  rw [Matrix.charpoly, Matrix.det_fin_two]
  simp [Matrix.charmatrix_apply_eq, Matrix.charmatrix_apply_ne]
  ring

theorem roots_M2 : ((X : ℝ[X]) ^ 2 - 1).roots = {-1, 1} := by
  have h : ((X : ℝ[X]) ^ 2 - 1) = (X - C (-1)) * (X - C 1) := by
    simp only [map_neg, map_one]
    ring
  rw [h, roots_mul (mul_ne_zero (X_sub_C_ne_zero _) (X_sub_C_ne_zero _)),
    roots_X_sub_C, roots_X_sub_C]
  rfl

theorem eig_M2 : eigvalsh (!![(0:ℝ), 1; 1, 0]) = [-1, 1] := by
  rw [eigvalsh, charpoly_M2, roots_M2]
  have hperm : (Multiset.sort (α := ℝ) (· ≤ ·) {-1, 1}).Perm [-1, 1] := by
    rw [← Multiset.coe_eq_coe, Multiset.sort_eq]
    rfl
  exact List.eq_of_perm_of_sorted hperm (Multiset.sort_sorted _ _)
    (by norm_num [List.sorted_cons])

theorem egoMatrix_alpha_beta :
    egoMatrix adjABv ["alpha", "beta"] = !![(0:ℝ), 1; 1, 0] := by
  ext i j
  fin_cases i <;> fin_cases j <;>
    simp [egoMatrix, lookupWeight, adjABv, List.find?]

theorem signal_alpha_beta :
    nonTrivialNormalizedSpectralSignal ["alpha", "beta"] adjABv
      = 1 - Real.exp (-(1/3 : ℝ)) := by
  simp only [nonTrivialNormalizedSpectralSignal, egoMatrix_alpha_beta]
  have hrow : ∀ i : Fin (["alpha", "beta"].length),
      (∑ x : Fin (["alpha", "beta"].length),
        (!![(0:ℝ), 1; 1, 0] i x + !![(0:ℝ), 1; 1, 0] x i) / 2) = 1 := by
    intro i
    fin_cases i <;> simp [Fin.sum_univ_two]
  have hsym : ∀ i j : Fin (["alpha", "beta"].length),
      (!![(0:ℝ), 1; 1, 0] i j + !![(0:ℝ), 1; 1, 0] j i) / 2
        = !![(0:ℝ), 1; 1, 0] i j := by
    intro i j
    fin_cases i <;> fin_cases j <;> norm_num
  simp only [hrow]
  rw [if_neg (by
    intro hall
    exact absurd (hall ⟨0, by norm_num⟩) (by norm_num))]
  simp only [zero_lt_one, if_true, Real.sqrt_one, div_one, mul_one, hsym]
  have heig : eigvalsh (fun i j : Fin (["alpha", "beta"].length) =>
      !![(0:ℝ), 1; 1, 0] i j) = [-1, 1] := eig_M2
  rw [heig]
  rw [if_neg (by norm_num)]
  have hlen : ((["alpha", "beta"].length : ℕ) : ℝ) = 2 := by norm_num
  rw [hlen]
  norm_num

theorem idf_alpha : idfWeight "alpha" [("alpha", 1), ("beta", 1)] 1 = 1 := by
  rw [idfWeight, if_neg (by norm_num)]
  have hl : lookupTokenNat [("alpha", 1), ("beta", 1)] "alpha" = 1 := by decide
  rw [hl]
  norm_num [Real.log_one]

theorem radius_alpha_beta :
    termGraphSpectralRadius "alpha" graphABv 2 = 1 - Real.exp (-(1/3 : ℝ)) := by
  have hexp : Real.exp (-(1/3 : ℝ)) < 1 := by
    have h := Real.exp_lt_exp.mpr (show -(1/3 : ℝ) < 0 by norm_num)
    rwa [Real.exp_zero] at h
  rw [termGraphSpectralRadius, normalizeTerm_alpha, tokenize_alpha]
  rw [if_neg (by decide)]
  have hadj : graphABv.adjacency = adjABv := rfl
  have htdf : graphABv.tokenDocFrequency = [("alpha", 1), ("beta", 1)] := rfl
  have hcc : graphABv.contextCount = 1 := rfl
  simp only [List.foldl_cons, List.foldl_nil, hadj, htdf, hcc, ego_alpha_beta]
  have hcov : (0:ℝ) < 1 - Real.exp (-(1/3 : ℝ)) := by linarith
  rw [signal_alpha_beta, idf_alpha]
  rw [if_neg (not_le.mpr hcov)]
  norm_num


/-! ### Claim C2: the counterexample instance and the amended claim -/

theorem cex_score_lb (h : String → Nat) (embeddingDim : Nat) :
    (7/20 : ℝ) ≤ (scoreTermCore h embeddingDim zeroLabeler defaultEngine none
      "alpha" ["alpha beta"] "en-US" 0).score := by
  have hscore : (scoreTermCore h embeddingDim zeroLabeler defaultEngine none
      "alpha" ["alpha beta"] "en-US" 0).score
      = (defaultEngine.fuse
          ⟨(scoreTermCore h embeddingDim zeroLabeler defaultEngine none
              "alpha" ["alpha beta"] "en-US" 0).eigenGraph,
            (scoreTermCore h embeddingDim zeroLabeler defaultEngine none
              "alpha" ["alpha beta"] "en-US" 0).eigenCtx,
            (scoreTermCore h embeddingDim zeroLabeler defaultEngine none
              "alpha" ["alpha beta"] "en-US" 0).severityMean,
            (scoreTermCore h embeddingDim zeroLabeler defaultEngine none
              "alpha" ["alpha beta"] "en-US" 0).targetednessMean,
            (scoreTermCore h embeddingDim zeroLabeler defaultEngine none
              "alpha" ["alpha beta"] "en-US" 0).reclaimedRate,
            (scoreTermCore h embeddingDim zeroLabeler defaultEngine none
              "alpha" ["alpha beta"] "en-US" 0).trendVelocity,
            (scoreTermCore h embeddingDim zeroLabeler defaultEngine none
              "alpha" ["alpha beta"] "en-US" 0).sampleSize⟩ none).score := rfl
  have heg : (scoreTermCore h embeddingDim zeroLabeler defaultEngine none
      "alpha" ["alpha beta"] "en-US" 0).eigenGraph = 1 - Real.exp (-(1/3 : ℝ)) := by
    have h1 : (scoreTermCore h embeddingDim zeroLabeler defaultEngine none
        "alpha" ["alpha beta"] "en-US" 0).eigenGraph
        = termGraphSpectralRadius (normalizeTerm "alpha")
            (buildGraphCore ["alpha beta"] 6 2 defaultStopwords) 2 := rfl
    rw [h1, normalizeTerm_alpha, buildGraph_alpha_beta, radius_alpha_beta]
  have hsm : (scoreTermCore h embeddingDim zeroLabeler defaultEngine none
      "alpha" ["alpha beta"] "en-US" 0).severityMean = 0 := by
    have h1 : (scoreTermCore h embeddingDim zeroLabeler defaultEngine none
        "alpha" ["alpha beta"] "en-US" 0).severityMean
        = ((zeroLabeler (normalizeTerm "alpha") ["alpha beta"] "en-US").map
            fun label => label.severity).sum
          / ((["alpha beta"] : List String).length : ℝ) := rfl
    rw [h1]
    norm_num [zeroLabeler]
  have htm : (scoreTermCore h embeddingDim zeroLabeler defaultEngine none
      "alpha" ["alpha beta"] "en-US" 0).targetednessMean = 0 := by
    have h1 : (scoreTermCore h embeddingDim zeroLabeler defaultEngine none
        "alpha" ["alpha beta"] "en-US" 0).targetednessMean
        = ((zeroLabeler (normalizeTerm "alpha") ["alpha beta"] "en-US").map
            fun label => label.targetedness).sum
          / ((["alpha beta"] : List String).length : ℝ) := rfl
    rw [h1]
    norm_num [zeroLabeler]
  have hrr : (scoreTermCore h embeddingDim zeroLabeler defaultEngine none
      "alpha" ["alpha beta"] "en-US" 0).reclaimedRate = 0 := by
    have h1 : (scoreTermCore h embeddingDim zeroLabeler defaultEngine none
        "alpha" ["alpha beta"] "en-US" 0).reclaimedRate
        = (((zeroLabeler (normalizeTerm "alpha") ["alpha beta"] "en-US").filter
            fun label => label.reclaimed).length : ℝ)
          / ((["alpha beta"] : List String).length : ℝ) := rfl
    rw [h1]
    norm_num [zeroLabeler]
  have htv : (scoreTermCore h embeddingDim zeroLabeler defaultEngine none
      "alpha" ["alpha beta"] "en-US" 0).trendVelocity = 0 := rfl
  rw [hscore, defaultFuse_score]
  dsimp only
  rw [heg, hsm, htm, hrr, htv]
  apply sigmoid_ge (y := -(36973/62450 : ℝ))
  · have hgLB := compress_lb
    have hcLB := compress_nonneg ((scoreTermCore h embeddingDim zeroLabeler
      defaultEngine none "alpha" ["alpha beta"] "en-US" 0).eigenCtx)
    linarith
  · rw [neg_neg]
    exact key_exp_bound

theorem cex_not_monitor (h : String → Nat) (embeddingDim : Nat) :
    (scoreTermCore h embeddingDim zeroLabeler defaultEngine none "alpha"
      ["alpha beta"] "en-US" 0).band ≠ Band.monitor := by
  have hband : (scoreTermCore h embeddingDim zeroLabeler defaultEngine none
      "alpha" ["alpha beta"] "en-US" 0).band
      = scoreBand
          (scoreTermCore h embeddingDim zeroLabeler defaultEngine none
            "alpha" ["alpha beta"] "en-US" 0).score
          (tunedBandThresholds defaultEngine.reviewThreshold
            defaultEngine.blockThreshold none 80).1
          (tunedBandThresholds defaultEngine.reviewThreshold
            defaultEngine.blockThreshold none 80).2 := rfl
  have htuned : tunedBandThresholds defaultEngine.reviewThreshold
      defaultEngine.blockThreshold none 80 = (0.35, 0.65) := rfl
  intro hmon
  rw [hband, htuned] at hmon
  dsimp only at hmon
  have hlt := ((scoreBand_iff
    (scoreTermCore h embeddingDim zeroLabeler defaultEngine none "alpha"
      ["alpha beta"] "en-US" 0).score 0.35 0.65).2.2.mp hmon).2
  have hge := cex_score_lb h embeddingDim
  linarith

/-- C2 is false as stated: for the term "alpha" in the single context
"alpha beta", a labeler that returns severity 0, targetedness 0 and
reclaimed false for every context, with trend velocity 0 and no stored
feature quantiles, still produces a band other than monitor (the two-token
co-occurrence graph yields a positive spectral-radius feature which pushes
the fused score to at least the 0.35 review threshold). -/
theorem claim_C2_counterexample :
    ¬ ((scoreTermCore (fun _ => 0) 8 zeroLabeler defaultEngine none "alpha"
          ["alpha beta"] "en-US" 0).score < 0.5 ∧
       (scoreTermCore (fun _ => 0) 8 zeroLabeler defaultEngine none "alpha"
          ["alpha beta"] "en-US" 0).band = Band.monitor) := by
  rintro ⟨-, hband⟩
  exact cex_not_monitor (fun _ => 0) 8 hband

/-- C2 (amended): for every term and non-empty list of contexts, if the
labeler returns severity 0, targetedness 0 and reclaimed false for every
context, trend velocity is 0, no feature quantiles are stored, and the two
eigen features of the response are nonpositive, then `score_term` returns
`score < 0.5` and `band = monitor`. -/
theorem claim_C2 (h : String → Nat) (embeddingDim : Nat) (labeler : Labeler)
    (term : String) (contexts : List String) (locale : String)
    (_hne : contexts ≠ [])
    (hlab : ∀ label ∈ labeler (normalizeTerm term) contexts locale,
      label.severity = 0 ∧ label.targetedness = 0 ∧ label.reclaimed = false)
    (heg : (scoreTermCore h embeddingDim labeler defaultEngine none term
        contexts locale 0).eigenGraph ≤ 0)
    (hec : (scoreTermCore h embeddingDim labeler defaultEngine none term
        contexts locale 0).eigenCtx ≤ 0) :
    (scoreTermCore h embeddingDim labeler defaultEngine none term contexts
        locale 0).score < 0.5 ∧
    (scoreTermCore h embeddingDim labeler defaultEngine none term contexts
        locale 0).band = Band.monitor := by
  have hscore : (scoreTermCore h embeddingDim labeler defaultEngine none term
      contexts locale 0).score
      = (defaultEngine.fuse
          ⟨(scoreTermCore h embeddingDim labeler defaultEngine none term
              contexts locale 0).eigenGraph,
            (scoreTermCore h embeddingDim labeler defaultEngine none term
              contexts locale 0).eigenCtx,
            (scoreTermCore h embeddingDim labeler defaultEngine none term
              contexts locale 0).severityMean,
            (scoreTermCore h embeddingDim labeler defaultEngine none term
              contexts locale 0).targetednessMean,
            (scoreTermCore h embeddingDim labeler defaultEngine none term
              contexts locale 0).reclaimedRate,
            (scoreTermCore h embeddingDim labeler defaultEngine none term
              contexts locale 0).trendVelocity,
            (scoreTermCore h embeddingDim labeler defaultEngine none term
              contexts locale 0).sampleSize⟩ none).score := rfl
  have hsm : (scoreTermCore h embeddingDim labeler defaultEngine none term
      contexts locale 0).severityMean = 0 := by
    have h1 : (scoreTermCore h embeddingDim labeler defaultEngine none term
        contexts locale 0).severityMean
        = ((labeler (normalizeTerm term) contexts locale).map
            fun label => label.severity).sum / (contexts.length : ℝ) := rfl
    have hz : ((labeler (normalizeTerm term) contexts locale).map
        fun label => label.severity).sum = 0 := by
      apply List.sum_eq_zero
      intro x hx
      obtain ⟨l, hl, rfl⟩ := List.mem_map.mp hx
      exact (hlab l hl).1
    rw [h1, hz, zero_div]
  have htm : (scoreTermCore h embeddingDim labeler defaultEngine none term
      contexts locale 0).targetednessMean = 0 := by
    have h1 : (scoreTermCore h embeddingDim labeler defaultEngine none term
        contexts locale 0).targetednessMean
        = ((labeler (normalizeTerm term) contexts locale).map
            fun label => label.targetedness).sum / (contexts.length : ℝ) := rfl
    have hz : ((labeler (normalizeTerm term) contexts locale).map
        fun label => label.targetedness).sum = 0 := by
      apply List.sum_eq_zero
      intro x hx
      obtain ⟨l, hl, rfl⟩ := List.mem_map.mp hx
      exact (hlab l hl).2.1
    rw [h1, hz, zero_div]
  have hrr : (scoreTermCore h embeddingDim labeler defaultEngine none term
      contexts locale 0).reclaimedRate = 0 := by
    have h1 : (scoreTermCore h embeddingDim labeler defaultEngine none term
        contexts locale 0).reclaimedRate
        = (((labeler (normalizeTerm term) contexts locale).filter
            fun label => label.reclaimed).length : ℝ)
          / (contexts.length : ℝ) := rfl
    have hz : ((labeler (normalizeTerm term) contexts locale).filter
        fun label => label.reclaimed) = [] := by
      rw [List.filter_eq_nil_iff]
      intro l hl
      simp [(hlab l hl).2.2]
    rw [h1, hz]
    simp
  have htv : (scoreTermCore h embeddingDim labeler defaultEngine none term
      contexts locale 0).trendVelocity = 0 := rfl
  have hg0 : compressNonnegative ((scoreTermCore h embeddingDim labeler
      defaultEngine none term contexts locale 0).eigenGraph) = 0 :=
    compress_nonpos heg
  have hc0 : compressNonnegative ((scoreTermCore h embeddingDim labeler
      defaultEngine none term contexts locale 0).eigenCtx) = 0 :=
    compress_nonpos hec
  have hsval : (scoreTermCore h embeddingDim labeler defaultEngine none term
      contexts locale 0).score = sigmoid (-0.8) := by
    rw [hscore, defaultFuse_score]
    dsimp only
    rw [hsm, htm, hrr, htv, hg0, hc0]
    norm_num
  have he08 : (13/7 : ℝ) < Real.exp 0.8 := by
    have h14 : (1.4 : ℝ) ≤ Real.exp 0.4 := by
      have := Real.add_one_le_exp (0.4 : ℝ)
      linarith
    have hsq : Real.exp (0.8 : ℝ) = Real.exp (0.4 : ℝ) ^ 2 := by
      rw [← Real.exp_nat_mul]
      norm_num
    nlinarith [Real.exp_pos (0.4 : ℝ)]
  have hs35 : sigmoid (-0.8) < 0.35 := by
    rw [sigmoid, neg_neg, div_lt_iff₀ (by positivity)]
    nlinarith
  constructor
  · rw [hsval]
    linarith
  · have hband : (scoreTermCore h embeddingDim labeler defaultEngine none term
        contexts locale 0).band
        = scoreBand
            (scoreTermCore h embeddingDim labeler defaultEngine none term
              contexts locale 0).score
            (tunedBandThresholds defaultEngine.reviewThreshold
              defaultEngine.blockThreshold none 80).1
            (tunedBandThresholds defaultEngine.reviewThreshold
              defaultEngine.blockThreshold none 80).2 := rfl
    have htuned : tunedBandThresholds defaultEngine.reviewThreshold
        defaultEngine.blockThreshold none 80 = (0.35, 0.65) := rfl
    rw [hband, htuned]
    dsimp only
    apply (scoreBand_iff (scoreTermCore h embeddingDim labeler defaultEngine
      none term contexts locale 0).score 0.35 0.65).2.2.mpr
    constructor
    · rw [hsval]; linarith
    · rw [hsval]; linarith

theorem split_sentences_alpha : splitSentences "alpha" = ["alpha"] := by
  simp [splitSentences, splitSentencesL, splitChunks, pyStrip, isSpaceChar,
    isPunctChar]

theorem covViews_alpha : covarianceViews ["alpha"] = ["alpha"] := by
  simp only [covarianceViews]
  have hclean : ((["alpha"].filter fun t => !(pyStrip t.data).isEmpty).map
      fun t => String.mk (pyStrip t.data)) = ["alpha"] := by decide
  rw [hclean]
  rw [if_neg (by norm_num)]
  dsimp only
  rw [split_sentences_alpha]
  rw [if_neg (by norm_num)]
  rw [tokenize_alpha]
  rw [if_pos (by norm_num)]

theorem eigenCtx_alpha (h : String → Nat) (dim : Nat) :
    contextCovarianceLargestEigenvalue h ["alpha"] dim = 0 := by
  simp only [contextCovarianceLargestEigenvalue, covViews_alpha]
  rw [if_pos (by norm_num)]

theorem buildGraph_alpha :
    buildGraphCore ["alpha"] 6 2 defaultStopwords = ⟨[], [("alpha", 1)], 1⟩ := by
  have hfil : filterTokens "alpha" defaultStopwords 2 = ["alpha"] := by
    simp only [filterTokens, tokenize_alpha]
    decide
  have hprox : contextPairProx ["alpha"] 6 = [] := by
    simp [contextPairProx, List.range_succ, List.range']
  have hacc : ["alpha"].foldl (processContext 6 2 defaultStopwords)
      ⟨[], [], [], 0⟩ = ⟨[], [], [("alpha", 1)], 1⟩ := by
    simp only [List.foldl_cons, List.foldl_nil, processContext, hfil, hprox]
    simp [distinctTokens, bumpTokenCount, List.find?]
  rw [buildGraphCore, hacc]
  dsimp only
  rw [if_pos (show (1 = 0 ∨
    ([] : List ((String × String) × Nat)).isEmpty = true) from Or.inr rfl)]

theorem radius_alpha_single :
    termGraphSpectralRadius "alpha"
      (⟨[], [("alpha", 1)], 1⟩ : CooccurrenceGraph) 2 = 0 := by
  rw [termGraphSpectralRadius, normalizeTerm_alpha, tokenize_alpha]
  rw [if_neg (by decide)]
  have hego : egoNodes ([] : List ((String × String) × ℝ)) "alpha" 2 128
      = [] := by
    rw [egoNodes, if_neg (by decide)]
  simp only [List.foldl_cons, List.foldl_nil]
  rw [hego]
  rw [if_pos (show ([] : List String).length < 2 by norm_num)]
  norm_num

/-- C2 witness: term "alpha" in the single context "alpha", with the zero
labeler, digest constantly 0, dimension 8, trend velocity 0 and no stored
quantiles: both eigen features are 0, the score is below 0.5 and the band is
monitor. -/
theorem claim_C2_witness :
    (["alpha"] : List String) ≠ [] ∧
    (∀ label ∈ zeroLabeler (normalizeTerm "alpha") ["alpha"] "en-US",
      label.severity = 0 ∧ label.targetedness = 0 ∧ label.reclaimed = false) ∧
    (scoreTermCore (fun _ => 0) 8 zeroLabeler defaultEngine none "alpha"
      ["alpha"] "en-US" 0).score < 0.5 ∧
    (scoreTermCore (fun _ => 0) 8 zeroLabeler defaultEngine none "alpha"
      ["alpha"] "en-US" 0).band = Band.monitor := by
  have hne : (["alpha"] : List String) ≠ [] := by simp
  have hlab : ∀ label ∈ zeroLabeler (normalizeTerm "alpha") ["alpha"] "en-US",
      label.severity = 0 ∧ label.targetedness = 0 ∧ label.reclaimed = false := by
    intro l hl
    simp only [zeroLabeler, List.map_cons, List.map_nil,
      List.mem_singleton] at hl
    rw [hl]
    exact ⟨rfl, rfl, rfl⟩
  have heg : (scoreTermCore (fun _ => 0) 8 zeroLabeler defaultEngine none
      "alpha" ["alpha"] "en-US" 0).eigenGraph ≤ 0 := by
    have h1 : (scoreTermCore (fun _ => 0) 8 zeroLabeler defaultEngine none
        "alpha" ["alpha"] "en-US" 0).eigenGraph
        = termGraphSpectralRadius (normalizeTerm "alpha")
            (buildGraphCore ["alpha"] 6 2 defaultStopwords) 2 := rfl
    rw [h1, normalizeTerm_alpha, buildGraph_alpha, radius_alpha_single]
  have hec : (scoreTermCore (fun _ => 0) 8 zeroLabeler defaultEngine none
      "alpha" ["alpha"] "en-US" 0).eigenCtx ≤ 0 := by
    have h1 : (scoreTermCore (fun _ => 0) 8 zeroLabeler defaultEngine none
        "alpha" ["alpha"] "en-US" 0).eigenCtx
        = contextCovarianceLargestEigenvalue (fun _ => 0) ["alpha"] 8 := rfl
    rw [h1, eigenCtx_alpha]
  obtain ⟨hs, hb⟩ := claim_C2 (fun _ => 0) 8 zeroLabeler "alpha" ["alpha"]
    "en-US" hne hlab heg hec
  exact ⟨hne, hlab, hs, hb⟩


end EigenSlur
